import Mathlib

/-!
Verification development for the `openapi-gen` repository (Go).

The Go source is shallowly embedded: Go strings become `List Char`
(`GoStr`), Go maps become association lists with first-match lookup and
replace-or-append update, the relevant fragment of `go/ast` becomes the
inductive `ExprM`, and the `Schema` struct becomes an inductive value.
Stateful methods of `SchemaGenerator` are modelled by explicit state
passing over `SGen`.

Functions present in the repository sources (`schema_structs.go`,
`schema_basic_types.go`, `schema_enums.go`, `schema_tags.go`,
`cache.go`, `handlers.go`) are translated clause by clause and keep
their Go names.  The core dispatch `SchemaGenerator.GenerateSchema`
(file `schema.go`) is not among the provided sources; it is modelled
from the specification (sections 4.4 and 4.5) and marked as such.
-/

set_option maxRecDepth 4000

/-- Go strings are modelled as lists of characters. -/
abbrev GoStr := List Char

namespace GoLib

/-- Model of Go `strings.HasPrefix`. -/
def goHasPre (pre s : GoStr) : Bool := List.isPrefixOf pre s

/-- Model of Go `strings.TrimPrefix`: drop `pre` when it leads `s`, else `s`. -/
def goDropPre (pre s : GoStr) : GoStr :=
  if List.isPrefixOf pre s then s.drop pre.length else s

/-- Model of Go `strings.Contains` (substring containment). -/
def goContainsSub (sub : GoStr) : GoStr → Bool
  | [] => List.isPrefixOf sub []
  | c :: rest => List.isPrefixOf sub (c :: rest) || goContainsSub sub rest

/-- Model of Go `strings.Split` with a one-character separator
(every use of `strings.Split` in the embedded sources has a
one-character separator). -/
def goSplitChar (c : Char) : GoStr → List GoStr
  | [] => [[]]
  | x :: xs =>
    match goSplitChar c xs with
    | [] => if x = c then [[], []] else [[x]]
    | h :: t => if x = c then [] :: h :: t else (x :: h) :: t

/-- Model of Go `strings.Trim` with a one-character cutset. -/
def goTrimCh (c : Char) (s : GoStr) : GoStr :=
  ((s.dropWhile (· = c)).reverse.dropWhile (· = c)).reverse

/-- Model of Go `strings.TrimSpace`. -/
def goTrimSpace (s : GoStr) : GoStr :=
  ((s.dropWhile Char.isWhitespace).reverse.dropWhile Char.isWhitespace).reverse

/-- Model of Go `strings.SplitN(s, sep, 2)` for a one-character
separator, returning the two pieces (second piece empty when the
separator does not occur). -/
def goSplitN2 (c : Char) (s : GoStr) : GoStr × GoStr :=
  match s.findIdx? (· = c) with
  | some i => (s.take i, s.drop (i + 1))
  | none => (s, [])

/-- Approximation of `strconv.Atoi` success (optional sign then digits). -/
def goAtoiOk (s : GoStr) : Bool :=
  match s with
  | [] => false
  | c :: rest =>
    let digits := if c = '+' ∨ c = '-' then rest else c :: rest
    !digits.isEmpty && digits.all Char.isDigit

/-- Approximation of `strconv.ParseFloat` success on decimal literals
(Go parses into a binary float64; the embedding only records whether
the literal text parses, since floating point is not modelled). -/
def goParseFloatOk (s : GoStr) : Bool :=
  let body := match s with
    | c :: rest => if c = '+' ∨ c = '-' then rest else c :: rest
    | [] => []
  let (mant, ex) := goSplitN2 'e' body
  let (ip, fp) := goSplitN2 '.' mant
  (!ip.isEmpty || !fp.isEmpty) && ip.all Char.isDigit && fp.all Char.isDigit &&
    (match ex with
     | [] => (goContainsSub ['e'] body) = false
     | c :: rest =>
       let ed := if c = '+' ∨ c = '-' then rest else c :: rest
       !ed.isEmpty && ed.all Char.isDigit)

/-- First-match lookup in an association list (Go map read). -/
def lookupA {α : Type} : List (GoStr × α) → GoStr → Option α
  | [], _ => none
  | (k, v) :: rest, q => if k = q then some v else lookupA rest q

/-- Replace-or-append update of an association list (Go map write). -/
def setA {α : Type} : List (GoStr × α) → GoStr → α → List (GoStr × α)
  | [], q, v => [(q, v)]
  | (k, w) :: rest, q, v =>
    if k = q then (q, v) :: rest else (k, w) :: setA rest q v

/-- Number of entries stored under a key. -/
def countKey {α : Type} : List (GoStr × α) → GoStr → Nat
  | [], _ => 0
  | (k, _) :: rest, q => (if k = q then 1 else 0) + countKey rest q

end GoLib

open GoLib

example : goSplitChar ',' ("a,b".toList) = ["a".toList, "b".toList] := by decide

example : goContainsSub ("uu".toList) ("xuud".toList) = true := by decide

example : goTrimCh '"' ("\"ab\"".toList) = "ab".toList := by decide

example : goSplitN2 '=' ("k=v=w".toList) = ("k".toList, "v=w".toList) := by decide

namespace OpenapiGen

/-- Scalar metadata fields of the Go `Schema` struct (`generator.go`):
everything `applyEnhancedTags` and the enum detector write.  Numeric
bounds store the literal text when the Go parse succeeds, since
float64 itself is not modelled. -/
structure SMeta where
  description : GoStr := []
  format : GoStr := []
  pattern : GoStr := []
  enum : List GoStr := []
  exampleV : GoStr := []
  defaultV : GoStr := []
  title : GoStr := []
  minimum : Option GoStr := none
  maximum : Option GoStr := none
  minLength : Option GoStr := none
  maxLength : Option GoStr := none
  minItems : Option GoStr := none
  maxItems : Option GoStr := none
  uniqueItems : Option Bool := none
  deprecated : Option Bool := none
  readOnly : Option Bool := none
  writeOnly : Option Bool := none
  deriving DecidableEq, Repr

/-- The Go `Schema` struct (`generator.go`): type, properties, items,
required, additionalProperties, `$ref`, and the scalar metadata.
Recursive fields force an inductive rather than a structure. -/
inductive Schema where
  | mk (type : GoStr) (properties : List (GoStr × Schema)) (items : Option Schema)
      (required : List GoStr) (additionalProperties : Option Schema)
      (ref : GoStr) (meta : SMeta)

namespace Schema

def type : Schema → GoStr
  | .mk t _ _ _ _ _ _ => t

def properties : Schema → List (GoStr × Schema)
  | .mk _ p _ _ _ _ _ => p

def items : Schema → Option Schema
  | .mk _ _ i _ _ _ _ => i

def required : Schema → List GoStr
  | .mk _ _ _ r _ _ _ => r

def additionalProperties : Schema → Option Schema
  | .mk _ _ _ _ a _ _ => a

def ref : Schema → GoStr
  | .mk _ _ _ _ _ r _ => r

def meta : Schema → SMeta
  | .mk _ _ _ _ _ _ m => m

/-- A schema with only the `Type` field set (Go zero value otherwise). -/
def base (t : GoStr) : Schema := .mk t [] none [] none [] {}

/-- Rewrite only the scalar metadata of a schema. -/
def withMeta (s : Schema) (f : SMeta → SMeta) : Schema :=
  match s with
  | .mk t p i r a rf m => .mk t p i r a rf (f m)

@[simp] theorem type_mk (t p i r a rf m) : (Schema.mk t p i r a rf m).type = t := rfl

@[simp] theorem properties_mk (t p i r a rf m) :
    (Schema.mk t p i r a rf m).properties = p := rfl

@[simp] theorem items_mk (t p i r a rf m) : (Schema.mk t p i r a rf m).items = i := rfl

@[simp] theorem required_mk (t p i r a rf m) :
    (Schema.mk t p i r a rf m).required = r := rfl

@[simp] theorem ref_mk (t p i r a rf m) : (Schema.mk t p i r a rf m).ref = rf := rfl

@[simp] theorem meta_mk (t p i r a rf m) : (Schema.mk t p i r a rf m).meta = m := rfl

@[simp] theorem withMeta_meta (s : Schema) (f) : (s.withMeta f).meta = f s.meta := by
  cases s; rfl

@[simp] theorem withMeta_type (s : Schema) (f) : (s.withMeta f).type = s.type := by
  cases s; rfl

@[simp] theorem withMeta_items (s : Schema) (f) : (s.withMeta f).items = s.items := by
  cases s; rfl

@[simp] theorem withMeta_ref (s : Schema) (f) : (s.withMeta f).ref = s.ref := by
  cases s; rfl

end Schema

/-- Reference schema for a schema-table entry, exactly as produced for
named types: only `$ref` is set (`#/components/schemas/<qualifiedName>`,
see `qualified_names_test.go`). -/
def refSchema (qualifiedName : GoStr) : Schema :=
  .mk [] [] none [] none ("#/components/schemas/".toList ++ qualifiedName) {}

mutual

/-- The relevant fragment of `go/ast` expressions.  `ident` carries the
flag `Obj ≠ nil ∧ Obj.Kind = ast.Typ` used by `convertStructToSchema`;
`sel` is a selector whose receiver is an identifier; every other
expression shape (including selectors with non-identifier receivers)
is `other`. -/
inductive ExprM where
  | ident (name : GoStr) (isTypeObj : Bool)
  | star (e : ExprM)
  | arrayT (elt : ExprM)
  | sel (x : GoStr) (s : GoStr)
  | mapT (value : ExprM)
  | ifaceT
  | structT (fields : List FieldM)
  | other

/-- One struct field of `go/ast`: its name list, its type expression,
and the raw tag literal (backticks included) when a tag is present. -/
inductive FieldM where
  | mk (names : List GoStr) (ty : ExprM) (tag : Option GoStr)

end

namespace FieldM

def names : FieldM → List GoStr
  | .mk n _ _ => n

def ty : FieldM → ExprM
  | .mk _ t _ => t

def tag : FieldM → Option GoStr
  | .mk _ _ g => g

@[simp] theorem names_mk (n t g) : (FieldM.mk n t g).names = n := rfl

@[simp] theorem ty_mk (n t g) : (FieldM.mk n t g).ty = t := rfl

@[simp] theorem tag_mk (n t g) : (FieldM.mk n t g).tag = g := rfl

end FieldM

/-- One `go/ast` TypeSpec: the declared type name and its underlying
type expression. -/
structure TypeSpecM where
  name : GoStr
  ty : ExprM

/-- String kinds of `go/ast` literal tokens (`token.STRING` vs others). -/
inductive LitKind where
  | stringK
  | otherK
  deriving DecidableEq

/-- A `go/ast` literal in a constant declaration. -/
inductive LitM where
  | basicLit (kind : LitKind) (value : GoStr)
  | otherLit

/-- One spec inside a `go/ast` GenDecl: a ValueSpec (constants) or a
TypeSpec or something else. -/
inductive SpecM where
  | valueSpec (names : List GoStr) (tyO : Option ExprM) (values : List LitM)
  | typeSpecS (ts : TypeSpecM)
  | otherSpec

/-- The `go/token` declaration tokens distinguished by the sources. -/
inductive GoTok where
  | constTok
  | typeTok
  | otherTok
  deriving DecidableEq

/-- A `go/ast` top-level GenDecl. -/
structure DeclM where
  tok : GoTok
  specs : List SpecM

/-- A parsed Go file as stored in `TypeIndex.files`. -/
structure GoFileM where
  pkgName : GoStr
  decls : List DeclM

/-- The `TypeIndex` of `cache.go` (version with qualified lookup):
scoped types, parsed files, external known types, and the flattened
qualified-name map. -/
structure TypeIndexM where
  types : List (GoStr × List (GoStr × TypeSpecM))
  filesM : List GoFileM
  externalKnownTypes : List (GoStr × Schema)
  qualifiedTypes : List (GoStr × TypeSpecM)

namespace TypeIndexM

/-- `TypeIndex.getQualifiedTypeName` (`cache.go`): both the external
and the internal branch return `pkg + "." + typeName`. -/
def getQualifiedTypeName (_ : TypeIndexM) (pkg typeName : GoStr) : GoStr :=
  pkg ++ '.' :: typeName

/-- `TypeIndex.LookupQualifiedType` (`cache.go`). -/
def LookupQualifiedType (idx : TypeIndexM) (qualifiedName : GoStr) : Option TypeSpecM :=
  lookupA idx.qualifiedTypes qualifiedName

end TypeIndexM

/-- `isBasicType` (`schema_basic_types.go`): primitive names, or the
slice, pointer and map markers. -/
def isBasicType (typeName : GoStr) : Bool :=
  if typeName ∈ (["int", "int8", "int16", "int32", "int64",
      "uint", "uint8", "uint16", "uint32", "uint64",
      "float32", "float64", "string", "bool"].map String.toList) then
    true
  else
    goHasPre ("[]".toList) typeName || goHasPre ("*".toList) typeName ||
      goHasPre ("map[".toList) typeName

/-- `mapGoTypeToOpenAPI` (`schema_basic_types.go`). -/
def mapGoTypeToOpenAPI (typeName : GoStr) : GoStr :=
  if typeName ∈ (["int", "int8", "int16", "int32", "int64",
      "uint", "uint8", "uint16", "uint32", "uint64"].map String.toList) then
    "integer".toList
  else if typeName ∈ (["float32", "float64"].map String.toList) then
    "number".toList
  else if typeName = "bool".toList then
    "boolean".toList
  else if typeName = "string".toList then
    "string".toList
  else
    "object".toList

namespace TypeIndexM

/-- `TypeIndex.LookupUnqualifiedType` (`cache.go`): basic types are
excluded, then the first package containing the bare name wins; the
second component mirrors the Go `("", nil)` not-found convention. -/
def LookupUnqualifiedTypeGo (typeName : GoStr) (idx : TypeIndexM) :
    List (GoStr × List (GoStr × TypeSpecM)) → Option TypeSpecM × GoStr
  | [] => (none, [])
  | (pkgName, pkgTypes) :: rest =>
    match lookupA pkgTypes typeName with
    | some ts => (some ts, idx.getQualifiedTypeName pkgName typeName)
    | none => LookupUnqualifiedTypeGo typeName idx rest

def LookupUnqualifiedType (idx : TypeIndexM) (typeName : GoStr) :
    Option TypeSpecM × GoStr :=
  if isBasicType typeName then (none, [])
  else LookupUnqualifiedTypeGo typeName idx idx.types

/-- `TypeIndex.GetQualifiedTypeName` (`cache.go`): already-qualified
names are returned as-is; otherwise the qualified name of the first
scope declaring the bare name; otherwise the bare name unchanged. -/
def GetQualifiedTypeName (idx : TypeIndexM) (typeName : GoStr) : GoStr :=
  if goContainsSub ("." : String).toList typeName then typeName
  else
    let qualifiedName := (idx.LookupUnqualifiedType typeName).2
    if qualifiedName ≠ [] then qualifiedName else typeName

end TypeIndexM

/-- `extractJSONTag` (`schema_tags.go`): first `json:` part of the tag,
quotes trimmed, cut at the first comma. -/
def extractJSONTagGo : List GoStr → GoStr
  | [] => []
  | part :: rest =>
    if goHasPre ("json:".toList) part then
      let value := goTrimCh (Char.ofNat 34) (part.drop 5)
      match value.findIdx? (· = ',') with
      | some comma => value.take comma
      | none => value
    else extractJSONTagGo rest

def extractJSONTag (tag : GoStr) : GoStr :=
  extractJSONTagGo (goSplitChar ' ' tag)

/-- `extractTag` (`schema_tags.go`): value of `key:"..."` in a tag. -/
def extractTagGo (key : GoStr) : List GoStr → GoStr
  | [] => []
  | part :: rest =>
    if goHasPre (key ++ [':']) part then
      goTrimCh (Char.ofNat 34) (goDropPre (key ++ [':']) part)
    else extractTagGo key rest

def extractTag (tag key : GoStr) : GoStr :=
  extractTagGo key (goSplitChar ' ' tag)

/-- One `key=value` switch arm of the `openapi:"..."` tag loop in
`applyEnhancedTags` (`schema_tags.go`). -/
def applyOpenapiKV (schema : Schema) (key value : GoStr) : Schema :=
  if key = "format".toList then schema.withMeta fun m => { m with format := value }
  else if key = "pattern".toList then schema.withMeta fun m => { m with pattern := value }
  else if key = "example".toList then schema.withMeta fun m => { m with exampleV := value }
  else if key = "title".toList then schema.withMeta fun m => { m with title := value }
  else if key = "deprecated".toList then
    if value = "true".toList then schema.withMeta fun m => { m with deprecated := some true }
    else schema
  else if key = "readOnly".toList then
    if value = "true".toList then schema.withMeta fun m => { m with readOnly := some true }
    else schema
  else if key = "writeOnly".toList then
    if value = "true".toList then schema.withMeta fun m => { m with writeOnly := some true }
    else schema
  else if key = "minimum".toList then
    if goParseFloatOk value then schema.withMeta fun m => { m with minimum := some value }
    else schema
  else if key = "maximum".toList then
    if goParseFloatOk value then schema.withMeta fun m => { m with maximum := some value }
    else schema
  else if key = "minLength".toList then
    if goAtoiOk value then schema.withMeta fun m => { m with minLength := some value }
    else schema
  else if key = "maxLength".toList then
    if goAtoiOk value then schema.withMeta fun m => { m with maxLength := some value }
    else schema
  else if key = "minItems".toList then
    if goAtoiOk value then schema.withMeta fun m => { m with minItems := some value }
    else schema
  else if key = "maxItems".toList then
    if goAtoiOk value then schema.withMeta fun m => { m with maxItems := some value }
    else schema
  else if key = "uniqueItems".toList then
    if value = "true".toList then schema.withMeta fun m => { m with uniqueItems := some true }
    else schema
  else if key = "enum".toList then
    schema.withMeta fun m => { m with enum := (goSplitChar '|' value).map goTrimSpace }
  else if key = "default".toList then
    schema.withMeta fun m => { m with defaultV := value }
  else schema

/-- The `for _, part := range parts` loop of the openapi tag channel. -/
def applyOpenapiParts (schema : Schema) : List GoStr → Schema
  | [] => schema
  | rawPart :: rest =>
    let part := goTrimSpace rawPart
    let schema' :=
      if goContainsSub ("=".toList) part then
        let kv := goSplitN2 '=' part
        applyOpenapiKV schema (goTrimSpace kv.1) (goTrimSpace kv.2)
      else schema
    applyOpenapiParts schema' rest

/-- The `// Parse openapi tag for enhanced features` block of
`applyEnhancedTags` (`schema_tags.go`). -/
def applyOpenapiTagBlock (schema : Schema) (tag : GoStr) : Schema :=
  let openapiTag := extractTag tag ("openapi".toList)
  if openapiTag ≠ [] then applyOpenapiParts schema (goSplitChar ',' openapiTag)
  else schema

/-- The keyword checks inside the `validate` block of
`applyEnhancedTags` (`schema_tags.go`), in source order. -/
def applyValidateKeywords (s : Schema) (validateTag : GoStr) : Schema :=
  let a := if goContainsSub ("email".toList) validateTag then
      s.withMeta fun m => { m with format := "email".toList } else s
  let b := if goContainsSub ("uuid".toList) validateTag then
      a.withMeta fun m => { m with format := "uuid".toList } else a
  let c := if goContainsSub ("uri".toList) validateTag then
      b.withMeta fun m => { m with format := "uri".toList } else b
  if goContainsSub ("url".toList) validateTag then
    c.withMeta fun m => { m with format := "uri".toList } else c

/-- The `// Parse validate tag for additional constraints` block of
`applyEnhancedTags` (`schema_tags.go`). -/
def applyValidateTagBlock (schema : Schema) (tag : GoStr) : Schema :=
  let validateTag := extractTag tag ("validate".toList)
  if validateTag ≠ [] then applyValidateKeywords schema validateTag
  else schema

/-- The keyword checks inside the `binding` block of
`applyEnhancedTags` (`schema_tags.go`), in source order. -/
def applyBindingKeywords (s : Schema) (bindingTag : GoStr) : Schema :=
  let a := if goContainsSub ("email".toList) bindingTag then
      s.withMeta fun m => { m with format := "email".toList } else s
  if goContainsSub ("uuid".toList) bindingTag then
    a.withMeta fun m => { m with format := "uuid".toList } else a

/-- The `// Parse binding tag for additional format hints` block of
`applyEnhancedTags` (`schema_tags.go`). -/
def applyBindingTagBlock (schema : Schema) (tag : GoStr) : Schema :=
  let bindingTag := extractTag tag ("binding".toList)
  if bindingTag ≠ [] then applyBindingKeywords schema bindingTag
  else schema

/-- `applyEnhancedTags` (`schema_tags.go`): structural `openapi` hints,
then `validate` keyword hints, then `binding` keyword hints, each
block mutating the schema in order. -/
def applyEnhancedTags (schema : Schema) (tag : GoStr) : Schema :=
  applyBindingTagBlock (applyValidateTagBlock (applyOpenapiTagBlock schema tag) tag) tag

/-- `isPointerType` (`schema_structs.go`). -/
def isPointerType : ExprM → Bool
  | .star _ => true
  | _ => false

/-- `hasOmitEmpty` (`schema_structs.go`): substring check over the whole
raw tag literal. -/
def hasOmitEmpty : Option GoStr → Bool
  | none => false
  | some tagValue => goContainsSub ("omitempty".toList) tagValue

/-- `isConstantOfType` (`schema_enums.go`), on the `Type` field of a
ValueSpec. -/
def isConstantOfType (tyO : Option ExprM) (typeName : GoStr) : Bool :=
  match tyO with
  | none => false
  | some (.ident nm _) => nm = typeName
  | some _ => false

/-- The `for i := range vs.Names` loop body of `extractEnumValues`:
collect quoted string literal values positionally. -/
def collectConstValues : List GoStr → List LitM → List GoStr
  | [], _ => []
  | _ :: _, [] => []
  | _ :: ns, v :: vs =>
    (match v with
     | .basicLit .stringK s => [goTrimCh (Char.ofNat 34) s]
     | _ => []) ++ collectConstValues ns vs

/-- `extractEnumValues` (`schema_enums.go`): walk the indexed files of
the declaring package and collect, in declaration order, string
literal constants whose declared type matches. -/
def extractEnumValues (idx : TypeIndexM) (packageName typeName : GoStr) : List GoStr :=
  idx.filesM.flatMap fun file =>
    if file.pkgName = packageName then
      file.decls.flatMap fun d =>
        if d.tok = GoTok.constTok then
          d.specs.flatMap fun sp =>
            match sp with
            | .valueSpec names tyO values =>
              if isConstantOfType tyO typeName then collectConstValues names values
              else []
            | _ => []
        else []
    else []

/-- The schema built by `handleEnumType` on success. -/
def enumSchema (qualifiedName : GoStr) (values : List GoStr) : Schema :=
  .mk ("string".toList) [] none [] none []
    { description := "Enum type ".toList ++ qualifiedName, enum := values }

/-- `handleEnumType` (`schema_enums.go`): a qualified type whose
underlying type is the `string` identifier and which has sibling
string constants yields a string schema carrying the enum values. -/
def handleEnumType (idx : TypeIndexM) (qualifiedName : GoStr) : Option Schema :=
  match idx.LookupQualifiedType qualifiedName with
  | none => none
  | some ts =>
    match ts.ty with
    | .ident nm _ =>
      if nm = "string".toList then
        match goSplitChar '.' qualifiedName with
        | [pkg, typ] =>
          let enumValues := extractEnumValues idx pkg typ
          if enumValues ≠ [] then some (enumSchema qualifiedName enumValues)
          else none
        | _ => none
      else none
    | _ => none

/-- Mutable state of a `SchemaGenerator` (`generator.go`,
`NewGeneratorWithCache`): the per-run schema table and the shared
type index. -/
structure SGen where
  schemas : List (GoStr × Schema)
  typeIndex : TypeIndexM

/-- Shape of the recursive `sg.GenerateSchema` call: the helper
functions of `schema_structs.go` and `schema_basic_types.go` are
parameterised over it and tied back by the wrappers below. -/
abbrev GenFun := SGen → GoStr → Schema × SGen

/-- Modelled from the spec: the `SchemaGenerator.getQualifiedTypeName`
method lives in the missing `schema.go`; per section 4.4 it delegates
qualification to the declaration index. -/
def SGen.getQualifiedTypeName (st : SGen) (typeName : GoStr) : GoStr :=
  st.typeIndex.GetQualifiedTypeName typeName

/-- `ast.IsExported`: the first rune is upper case. -/
def isExported : GoStr → Bool
  | [] => false
  | c :: _ => c.isUpper

/-- The JSON property name of a field (`convertStructToSchema`): the
`json:` tag name when present, not empty and not `-`; otherwise the
declared field name. -/
def jsonNameOf (fieldName : GoStr) (tagO : Option GoStr) : GoStr :=
  match tagO with
  | none => fieldName
  | some tagLit =>
    let tag := goTrimCh (Char.ofNat 96) tagLit
    let jsonTag := extractJSONTag tag
    if jsonTag ≠ [] ∧ jsonTag ≠ "-".toList then jsonTag else fieldName

/-- `convertFieldType` (`schema_structs.go`), with `gen` standing for
the recursive `sg.GenerateSchema` call. -/
def convertFieldTypeF (gen : GenFun) (st : SGen) : ExprM → Schema × SGen
  | .ident nm _ =>
    let basic := mapGoTypeToOpenAPI nm
    if basic ≠ "object".toList then (Schema.base basic, st)
    else
      let qualified := st.typeIndex.GetQualifiedTypeName nm
      gen st qualified
  | .star e => convertFieldTypeF gen st e
  | .arrayT elt =>
    let r := convertFieldTypeF gen st elt
    (.mk ("array".toList) [] (some r.1) [] none [] {}, r.2)
  | .sel x s => gen st (x ++ '.' :: s)
  | .mapT value =>
    let r := convertFieldTypeF gen st value
    (.mk ("object".toList) [] none [] (some r.1) [] {}, r.2)
  | .ifaceT => (Schema.base ("object".toList), st)
  | .structT _ => (Schema.base ("object".toList), st)
  | .other => (Schema.base ("object".toList), st)

/-- The `// Ensure dependent schemas generated` switch of
`convertStructToSchema` (`schema_structs.go`). -/
def ensureDependentF (gen : GenFun) (st : SGen) : ExprM → SGen
  | .ident nm isTypeObj =>
    if isTypeObj then (gen st (st.typeIndex.GetQualifiedTypeName nm)).2 else st
  | .star (.ident nm isTypeObj) =>
    if isTypeObj then (gen st (st.typeIndex.GetQualifiedTypeName nm)).2 else st
  | .sel x s => (gen st (x ++ '.' :: s)).2
  | _ => st

/-- The field loop of `convertStructToSchema` (`schema_structs.go`),
threading the accumulated properties, required list and state. -/
def convertFieldsF (gen : GenFun) (st : SGen) :
    List FieldM → List (GoStr × Schema) → List GoStr →
    List (GoStr × Schema) × List GoStr × SGen
  | [], props, req => (props, req, st)
  | field :: rest, props, req =>
    match field.names with
    | [] => convertFieldsF gen st rest props req
    | fieldName :: _ =>
      if isExported fieldName = false then convertFieldsF gen st rest props req
      else
        let jsonName := jsonNameOf fieldName field.tag
        let r1 := convertFieldTypeF gen st field.ty
        let fieldSchema :=
          match field.tag with
          | none => r1.1
          | some tagLit => applyEnhancedTags r1.1 (goTrimCh (Char.ofNat 96) tagLit)
        let props' := setA props jsonName fieldSchema
        let st2 := ensureDependentF gen r1.2 field.ty
        let req' :=
          if isPointerType field.ty = false ∧ hasOmitEmpty field.tag = false then
            req ++ [jsonName]
          else req
        convertFieldsF gen st2 rest props' req'

/-- `convertStructToSchema` (`schema_structs.go`): an object schema
with the accumulated properties and required names. -/
def convertStructToSchemaF (gen : GenFun) (st : SGen) (fields : List FieldM) :
    Schema × SGen :=
  let r := convertFieldsF gen st fields [] []
  (.mk ("object".toList) r.1 none r.2.1 none [] {}, r.2.2)

/-- `generateBasicTypeSchema` (`schema_basic_types.go`). -/
def generateBasicTypeSchemaF (gen : GenFun) (st : SGen) (typeName : GoStr) :
    Schema × SGen :=
  if goHasPre ("[]".toList) typeName then
    let r := gen st (goDropPre ("[]".toList) typeName)
    (.mk ("array".toList) [] (some r.1) [] none [] {}, r.2)
  else if goHasPre ("*".toList) typeName then
    gen st (goDropPre ("*".toList) typeName)
  else
    (.mk (mapGoTypeToOpenAPI typeName) [] none [] none []
      { description := "basic Go type".toList }, st)

/-- The being-built marker registered before member recursion
(spec section 4.5). -/
def placeholderSchema : Schema :=
  .mk ("object".toList) [] none [] none [] { description := "being built".toList }

/-- Modelled from the spec: `SchemaGenerator.GenerateSchema` lives in
the missing `schema.go`.  Per sections 4.4 and 4.5 it tries, in order,
the known-external override table, the primitive/composite classifier,
the schema table (memoizer), the enum detector, and the struct
resolver; named types are registered under their qualified name — with
a placeholder before member recursion — and every caller receives a
reference schema.  A type found as a plain primitive alias resolves to
the plain primitive schema; an unlocatable type falls back silently to
an object schema.  `Nat` fuel bounds the recursion depth. -/
def GenerateSchema : Nat → SGen → GoStr → Schema × SGen
  | 0, st, _ => (Schema.base ("object".toList), st)
  | n + 1, st, typeName =>
    match lookupA st.typeIndex.externalKnownTypes typeName with
    | some s => (s, st)
    | none =>
      if isBasicType typeName then
        generateBasicTypeSchemaF (GenerateSchema n) st typeName
      else
        let qualifiedName := st.typeIndex.GetQualifiedTypeName typeName
        match lookupA st.schemas qualifiedName with
        | some _ => (refSchema qualifiedName, st)
        | none =>
          match handleEnumType st.typeIndex qualifiedName with
          | some es =>
            (refSchema qualifiedName,
              { st with schemas := setA st.schemas qualifiedName es })
          | none =>
            match st.typeIndex.LookupQualifiedType qualifiedName with
            | some ts =>
              match ts.ty with
              | .structT fields =>
                let st1 :=
                  { st with schemas := setA st.schemas qualifiedName placeholderSchema }
                let r := convertStructToSchemaF (GenerateSchema n) st1 fields
                (refSchema qualifiedName,
                  { r.2 with schemas := setA r.2.schemas qualifiedName r.1 })
              | .ident nm _ => (Schema.base (mapGoTypeToOpenAPI nm), st)
              | _ => (Schema.base ("object".toList), st)
            | none => (Schema.base ("object".toList), st)

/-- `convertFieldType` at a given fuel. -/
def convertFieldType (fuel : Nat) : SGen → ExprM → Schema × SGen :=
  convertFieldTypeF (GenerateSchema fuel)

/-- `convertStructToSchema` at a given fuel. -/
def convertStructToSchema (fuel : Nat) : SGen → List FieldM → Schema × SGen :=
  convertStructToSchemaF (GenerateSchema fuel)

/-- `generateBasicTypeSchema` at a given fuel. -/
def generateBasicTypeSchema (fuel : Nat) : SGen → GoStr → Schema × SGen :=
  generateBasicTypeSchemaF (GenerateSchema fuel)

/-- An empty type index, for concrete checks. -/
def emptyIdx : TypeIndexM := ⟨[], [], [], []⟩

/-- A fresh generator over a given index (`NewGeneratorWithCache`). -/
def freshSGen (idx : TypeIndexM) : SGen := ⟨[], idx⟩

/-- Fields of the struct in `TestConvertStructToSchema_Simple`. -/
def simpleTestFields : List FieldM :=
  [ .mk ["A".toList] (.ident ("string".toList) false) (some "`json:\"a\"`".toList),
    .mk ["B".toList] (.star (.ident ("int".toList) false)) none,
    .mk ["C".toList] (.ident ("bool".toList) false) (some "`json:\"c,omitempty\"`".toList),
    .mk ["d".toList] (.ident ("float64".toList) false) none ]

example :
    (convertStructToSchema 1 (freshSGen emptyIdx) simpleTestFields).1.required
      = ["a".toList] := by decide

example :
    lookupA (convertStructToSchema 1 (freshSGen emptyIdx) simpleTestFields).1.properties
      ("a".toList) = some (Schema.base ("string".toList)) := by rfl

example :
    lookupA (convertStructToSchema 1 (freshSGen emptyIdx) simpleTestFields).1.properties
      ("B".toList) = some (Schema.base ("integer".toList)) := by rfl

example :
    lookupA (convertStructToSchema 1 (freshSGen emptyIdx) simpleTestFields).1.properties
      ("c".toList) = some (Schema.base ("boolean".toList)) := by rfl

/-- The index built around `MyEnum` in `TestHandleEnumType_Positive`. -/
def myEnumIdx : TypeIndexM :=
  { types := [("openapi".toList,
      [("MyEnum".toList, ⟨"MyEnum".toList, .ident ("string".toList) false⟩)])],
    filesM := [⟨"openapi".toList,
      [⟨GoTok.constTok,
        [.valueSpec ["EnumX".toList] none [],
         .valueSpec ["EnumA".toList] (some (.ident ("MyEnum".toList) false))
           [.basicLit .stringK "\"A\"".toList],
         .valueSpec ["EnumB".toList] (some (.ident ("MyEnum".toList) false))
           [.basicLit .stringK "\"B\"".toList]]⟩]⟩],
    externalKnownTypes := [],
    qualifiedTypes := [("openapi.MyEnum".toList,
      ⟨"MyEnum".toList, .ident ("string".toList) false⟩)] }

example :
    handleEnumType myEnumIdx ("openapi.MyEnum".toList)
      = some (enumSchema ("openapi.MyEnum".toList) ["A".toList, "B".toList]) := by rfl

/-- The index built around `Simple` in `schema_test.go`. -/
def simpleIdx : TypeIndexM :=
  { types := [("openapi".toList,
      [("Simple".toList, ⟨"Simple".toList, .structT
        [ .mk ["ID".toList] (.ident ("int".toList) false) (some "`json:\"id\"`".toList),
          .mk ["Name".toList] (.ident ("string".toList) false)
            (some "`json:\"name\"`".toList) ]⟩)])],
    filesM := [],
    externalKnownTypes := [],
    qualifiedTypes := [("openapi.Simple".toList, ⟨"Simple".toList, .structT
      [ .mk ["ID".toList] (.ident ("int".toList) false) (some "`json:\"id\"`".toList),
        .mk ["Name".toList] (.ident ("string".toList) false)
          (some "`json:\"name\"`".toList) ]⟩)] }

example :
    (GenerateSchema 3 (freshSGen simpleIdx) ("Simple".toList)).1
      = refSchema ("openapi.Simple".toList) := by rfl

example :
    countKey (GenerateSchema 3 (freshSGen simpleIdx) ("Simple".toList)).2.schemas
      ("openapi.Simple".toList) = 1 := by decide

example :
    (GenerateSchema 3
      (GenerateSchema 3 (freshSGen simpleIdx) ("Simple".toList)).2
      ("openapi.Simple".toList)).1 = refSchema ("openapi.Simple".toList) := by rfl

/-- A filesystem: path to file contents. -/
abbrev FS := List (GoStr × GoStr)

/-- Possible outcomes of `os.Create`. -/
inductive CreateRes where
  | ok
  | fail (err : GoStr)

/-- Possible outcomes of `json.Encoder.Encode` into the created file:
success, or failure after flushing some bytes `written`. -/
inductive EncodeRes where
  | ok
  | fail (written : GoStr) (err : GoStr)

/-- The file-writing tail of `GenerateOpenAPISpecFile` (`handlers.go`,
identical in both provided versions): `os.Create` (truncating in
place) then an indented `Encode`; every error is returned to the
caller unchanged.  `encoded` is the pretty-printed serialization of
the generated spec; `cr` and `er` are the filesystem outcomes. -/
def generateSpecFileWrite (fs : FS) (filePath encoded : GoStr)
    (cr : CreateRes) (er : EncodeRes) : Option GoStr × FS :=
  match cr with
  | .fail err => (some err, fs)
  | .ok =>
    let fsCreated := setA fs filePath []
    match er with
    | .ok => (none, setA fsCreated filePath encoded)
    | .fail written err => (some err, setA fsCreated filePath written)

section AssocLemmas

variable {α : Type}

theorem lookupA_setA_self (l : List (GoStr × α)) (k : GoStr) (v : α) :
    lookupA (setA l k v) k = some v := by
  induction l with
  | nil => simp [setA, lookupA]
  | cons kv rest ih =>
    obtain ⟨k', w⟩ := kv
    by_cases h : k' = k
    · simp [setA, h, lookupA]
    · simp [setA, h, lookupA, ih]

theorem lookupA_setA_ne (l : List (GoStr × α)) (k k' : GoStr) (v : α) (h : k' ≠ k) :
    lookupA (setA l k v) k' = lookupA l k' := by
  induction l with
  | nil => simp [setA, lookupA, Ne.symm h]
  | cons kv rest ih =>
    obtain ⟨k₀, w⟩ := kv
    by_cases h0 : k₀ = k
    · subst h0
      simp [setA, lookupA, Ne.symm h]
    · simp [setA, h0, lookupA, ih]

theorem isSome_lookupA_setA (l : List (GoStr × α)) (k q : GoStr) (v : α)
    (h : (lookupA l q).isSome = true) :
    (lookupA (setA l k v) q).isSome = true := by
  by_cases hq : q = k
  · subst hq
    simp [lookupA_setA_self]
  · rw [lookupA_setA_ne l k q v hq]
    exact h

theorem countKey_eq_zero_iff (l : List (GoStr × α)) (q : GoStr) :
    countKey l q = 0 ↔ lookupA l q = none := by
  induction l with
  | nil => simp [countKey, lookupA]
  | cons kv rest ih =>
    obtain ⟨k, w⟩ := kv
    by_cases h : k = q
    · simp [countKey, lookupA, h]
    · simp [countKey, lookupA, h, ih]

theorem countKey_setA_present (l : List (GoStr × α)) (k q : GoStr) (v : α)
    (h : (lookupA l k).isSome = true) :
    countKey (setA l k v) q = countKey l q := by
  induction l with
  | nil => simp [lookupA] at h
  | cons kv rest ih =>
    obtain ⟨k₀, w⟩ := kv
    by_cases h0 : k₀ = k
    · subst h0
      simp [setA, countKey]
    · simp [lookupA, h0] at h
      simp [setA, h0, countKey, ih h]

theorem countKey_setA_absent (l : List (GoStr × α)) (k q : GoStr) (v : α)
    (h : lookupA l k = none) :
    countKey (setA l k v) q = countKey l q + (if k = q then 1 else 0) := by
  induction l with
  | nil => simp [setA, countKey]
  | cons kv rest ih =>
    obtain ⟨k₀, w⟩ := kv
    by_cases h0 : k₀ = k
    · simp [lookupA, h0] at h
    · simp [lookupA, h0] at h
      simp [setA, h0, countKey, ih h]
      omega

end AssocLemmas

/-- The JSON property name a field contributes to the object schema,
when it participates at all (named and exported). -/
def participantName (f : FieldM) : Option GoStr :=
  match f.names with
  | [] => none
  | fieldName :: _ =>
    if isExported fieldName then some (jsonNameOf fieldName f.tag) else none

/-- The required-list entry a single field contributes, when any. -/
def requiredName (f : FieldM) : Option GoStr :=
  match f.names with
  | [] => none
  | fieldName :: _ =>
    if isExported fieldName ∧ isPointerType f.ty = false ∧ hasOmitEmpty f.tag = false
    then some (jsonNameOf fieldName f.tag) else none

/-- Required-field policy as the specification states it: a
participating member is required exactly when its declared type is not
a pointer and its tag carries no omitempty marker. -/
def requiredPolicy (fields : List FieldM) : List GoStr :=
  fields.filterMap requiredName

theorem requiredName_eq_participant {f : FieldM} {j : GoStr}
    (h : requiredName f = some j) : participantName f = some j := by
  rw [requiredName] at h
  rw [participantName]
  rcases hn : f.names with _ | ⟨fieldName, _⟩
  · rw [hn] at h
    simp at h
  · rw [hn] at h
    dsimp only at h ⊢
    split_ifs at h with hcond
    rw [if_pos hcond.1]
    exact h

theorem participant_requiredName {f : FieldM} {j : GoStr}
    (hp : participantName f = some j)
    (hc : isPointerType f.ty = false ∧ hasOmitEmpty f.tag = false) :
    requiredName f = some j := by
  rw [participantName] at hp
  rw [requiredName]
  rcases hn : f.names with _ | ⟨fieldName, _⟩
  · rw [hn] at hp
    simp at hp
  · rw [hn] at hp
    dsimp only at hp ⊢
    split_ifs at hp with he
    rw [if_pos ⟨he, hc⟩]
    exact hp

theorem requiredName_eq_none {f : FieldM} {j : GoStr}
    (_hp : participantName f = some j)
    (hc : ¬(isPointerType f.ty = false ∧ hasOmitEmpty f.tag = false)) :
    requiredName f = none := by
  rw [requiredName]
  rcases hn : f.names with _ | ⟨fieldName, _⟩
  all_goals try rfl
  dsimp only
  rw [if_neg]
  intro hcon
  exact hc ⟨hcon.2.1, hcon.2.2⟩

theorem requiredPolicy_sub_participant {fields : List FieldM} {j : GoStr}
    (h : j ∈ requiredPolicy fields) : ∃ f ∈ fields, participantName f = some j := by
  rw [requiredPolicy, List.mem_filterMap] at h
  obtain ⟨f, hf, hj⟩ := h
  exact ⟨f, hf, requiredName_eq_participant hj⟩

theorem requiredPolicy_mem {fields : List FieldM} {f : FieldM} {j : GoStr}
    (hf : f ∈ fields) (hp : participantName f = some j)
    (hc : isPointerType f.ty = false ∧ hasOmitEmpty f.tag = false) :
    j ∈ requiredPolicy fields :=
  List.mem_filterMap.2 ⟨f, hf, participant_requiredName hp hc⟩

/-- Under pairwise-distinct participating JSON names, a member whose
required conditions fail never shows up in the required list. -/
theorem requiredPolicy_not_mem {fields : List FieldM} {f : FieldM} {j : GoStr}
    (hnd : (fields.filterMap participantName).Nodup)
    (hf : f ∈ fields) (hp : participantName f = some j)
    (hc : ¬(isPointerType f.ty = false ∧ hasOmitEmpty f.tag = false)) :
    j ∉ requiredPolicy fields := by
  induction fields with
  | nil => simp at hf
  | cons g rest ih =>
    rcases List.mem_cons.1 hf with rfl | hfr
    · -- the field itself heads the list and contributes nothing
      rw [requiredPolicy, List.filterMap_cons, requiredName_eq_none hp hc]
      intro hmem
      obtain ⟨g', hg', hpg'⟩ := requiredPolicy_sub_participant hmem
      rw [List.filterMap_cons, hp] at hnd
      exact (List.nodup_cons.1 hnd).1 (List.mem_filterMap.2 ⟨g', hg', hpg'⟩)
    · rw [requiredPolicy, List.filterMap_cons]
      rcases hg : requiredName g with _ | a
      · exact ih (by
          rw [List.filterMap_cons] at hnd
          rcases hpg : participantName g with _ | b
          · rwa [hpg] at hnd
          · rw [hpg] at hnd
            exact (List.nodup_cons.1 hnd).2) hfr
      · have hpg := requiredName_eq_participant hg
        rw [List.filterMap_cons, hpg] at hnd
        have hja : a ≠ j := by
          intro heq
          subst heq
          exact (List.nodup_cons.1 hnd).1
            (List.mem_filterMap.2 ⟨f, hfr, hp⟩)
        intro hmem
        rcases List.mem_cons.1 hmem with rfl | hmem'
        · exact hja rfl
        · exact ih (List.nodup_cons.1 hnd).2 hfr hmem'

/-- The required accumulator of the field loop is exactly the policy. -/
theorem convertFieldsF_required (gen : GenFun) (fields : List FieldM) :
    ∀ (st : SGen) (props : List (GoStr × Schema)) (req : List GoStr),
      (convertFieldsF gen st fields props req).2.1 = req ++ requiredPolicy fields := by
  induction fields with
  | nil => intro st props req; simp [convertFieldsF, requiredPolicy]
  | cons f rest ih =>
    intro st props req
    rcases hn : f.names with _ | ⟨fieldName, others⟩
    · simp only [convertFieldsF, hn, ih]
      simp only [requiredPolicy]
      rw [List.filterMap_cons, show requiredName f = none by rw [requiredName, hn]]
    · simp only [convertFieldsF, hn]
      by_cases he : isExported fieldName = true
      · rw [if_neg (by rw [he]; simp)]
        by_cases hreq : isPointerType f.ty = false ∧ hasOmitEmpty f.tag = false
        · rw [if_pos hreq, ih]
          have hr : requiredName f = some (jsonNameOf fieldName f.tag) := by
            rw [requiredName, hn]
            dsimp only
            rw [if_pos ⟨he, hreq⟩]
          simp only [requiredPolicy]
          rw [List.filterMap_cons, hr]
          simp
        · rw [if_neg hreq, ih]
          have hr : requiredName f = none := by
            rw [requiredName, hn]
            dsimp only
            exact if_neg fun hcon => hreq ⟨hcon.2.1, hcon.2.2⟩
          simp only [requiredPolicy]
          rw [List.filterMap_cons, hr]
      · rw [Bool.not_eq_true] at he
        rw [if_pos (by rw [he]), ih]
        have hr : requiredName f = none := by
          rw [requiredName, hn]
          dsimp only
          rw [if_neg]
          intro hcon
          rw [he] at hcon
          exact absurd hcon.1 (by simp)
        simp only [requiredPolicy]
        rw [List.filterMap_cons, hr]

theorem participantName_cons {g : FieldM} {fieldName : GoStr} {others : List GoStr}
    (hn : g.names = fieldName :: others) (he : isExported fieldName = true) :
    participantName g = some (jsonNameOf fieldName g.tag) := by
  rw [participantName, hn]
  dsimp only
  rw [if_pos he]

/-- The field loop never introduces a property key that is not a
participating field's JSON name. -/
theorem convertFieldsF_props_none (gen : GenFun) (fields : List FieldM) :
    ∀ (st : SGen) (props : List (GoStr × Schema)) (req : List GoStr) (j : GoStr),
      lookupA props j = none → (∀ g ∈ fields, participantName g ≠ some j) →
      lookupA (convertFieldsF gen st fields props req).1 j = none := by
  induction fields with
  | nil =>
    intro st props req j h0 _
    simpa [convertFieldsF] using h0
  | cons f rest ih =>
    intro st props req j h0 hng
    rcases hn : f.names with _ | ⟨fieldName, others⟩
    · simp only [convertFieldsF, hn]
      exact ih _ _ _ _ h0 fun g hg => hng g (List.mem_cons_of_mem f hg)
    · simp only [convertFieldsF, hn]
      by_cases he : isExported fieldName = true
      · rw [if_neg (by rw [he]; simp)]
        have hkey : jsonNameOf fieldName f.tag ≠ j := by
          intro heq
          exact hng f (List.mem_cons_self f rest)
            (by rw [participantName_cons hn he, heq])
        refine ih _ _ _ _ ?_ fun g hg => hng g (List.mem_cons_of_mem f hg)
        rw [lookupA_setA_ne _ _ _ _ (Ne.symm hkey)]
        exact h0
      · rw [Bool.not_eq_true] at he
        rw [if_pos (by rw [he])]
        exact ih _ _ _ _ h0 fun g hg => hng g (List.mem_cons_of_mem f hg)

/-- Property keys already present survive the rest of the field loop. -/
theorem convertFieldsF_props_mono (gen : GenFun) (fields : List FieldM) :
    ∀ (st : SGen) (props : List (GoStr × Schema)) (req : List GoStr) (j : GoStr),
      (lookupA props j).isSome = true →
      (lookupA (convertFieldsF gen st fields props req).1 j).isSome = true := by
  induction fields with
  | nil =>
    intro st props req j h0
    simpa [convertFieldsF] using h0
  | cons f rest ih =>
    intro st props req j h0
    rcases hn : f.names with _ | ⟨fieldName, others⟩
    · simp only [convertFieldsF, hn]
      exact ih _ _ _ _ h0
    · simp only [convertFieldsF, hn]
      by_cases he : isExported fieldName = true
      · rw [if_neg (by rw [he]; simp)]
        exact ih _ _ _ _ (isSome_lookupA_setA _ _ _ _ h0)
      · rw [Bool.not_eq_true] at he
        rw [if_pos (by rw [he])]
        exact ih _ _ _ _ h0

/-- Every participating field's JSON name ends up among the produced
property keys. -/
theorem convertFieldsF_props_mem (gen : GenFun) (fields : List FieldM) :
    ∀ (st : SGen) (props : List (GoStr × Schema)) (req : List GoStr) (f : FieldM)
      (j : GoStr), f ∈ fields → participantName f = some j →
      (lookupA (convertFieldsF gen st fields props req).1 j).isSome = true := by
  induction fields with
  | nil =>
    intro st props req f j hf _
    simp at hf
  | cons g rest ih =>
    intro st props req f j hf hp
    rcases List.mem_cons.1 hf with rfl | hfr
    · rw [participantName] at hp
      rcases hn : f.names with _ | ⟨fieldName, others⟩
      · rw [hn] at hp
        simp at hp
      · rw [hn] at hp
        dsimp only at hp
        split_ifs at hp with he
        simp only [convertFieldsF, hn]
        rw [if_neg (by rw [he]; simp)]
        apply convertFieldsF_props_mono
        rw [Option.some_inj.1 hp, lookupA_setA_self]
        rfl
    · rcases hn : g.names with _ | ⟨fieldName, others⟩
      · simp only [convertFieldsF, hn]
        exact ih _ _ _ _ _ hfr hp
      · simp only [convertFieldsF, hn]
        by_cases he : isExported fieldName = true
        · rw [if_neg (by rw [he]; simp)]
          exact ih _ _ _ _ _ hfr hp
        · rw [Bool.not_eq_true] at he
          rw [if_pos (by rw [he])]
          exact ih _ _ _ _ _ hfr hp

theorem goContainsSub_of_mem {c : Char} {s : GoStr} (h : c ∈ s) :
    goContainsSub [c] s = true := by
  induction s with
  | nil => simp at h
  | cons a t ih =>
    rw [goContainsSub]
    rcases List.mem_cons.1 h with rfl | hmem
    · simp [List.isPrefixOf]
    · simp [ih hmem]

theorem lookupUnqualifiedGo_shape (idx : TypeIndexM) (typeName : GoStr)
    (l : List (GoStr × List (GoStr × TypeSpecM))) :
    (TypeIndexM.LookupUnqualifiedTypeGo typeName idx l).2 = [] ∨
      ∃ pkg, (TypeIndexM.LookupUnqualifiedTypeGo typeName idx l).2
        = pkg ++ '.' :: typeName := by
  induction l with
  | nil => left; rfl
  | cons p rest ih =>
    obtain ⟨pkgName, pkgTypes⟩ := p
    rw [TypeIndexM.LookupUnqualifiedTypeGo]
    rcases h : lookupA pkgTypes typeName with _ | ts
    · simpa [h] using ih
    · right
      exact ⟨pkgName, by simp [h, TypeIndexM.getQualifiedTypeName]⟩

theorem lookupUnqualified_shape (idx : TypeIndexM) (typeName : GoStr) :
    (idx.LookupUnqualifiedType typeName).2 = [] ∨
      ∃ pkg, (idx.LookupUnqualifiedType typeName).2 = pkg ++ '.' :: typeName := by
  rw [TypeIndexM.LookupUnqualifiedType]
  split_ifs with hb
  · left; rfl
  · exact lookupUnqualifiedGo_shape idx typeName idx.types

theorem getQualified_of_contains (idx : TypeIndexM) {y : GoStr}
    (hy : goContainsSub ("." : String).toList y = true) :
    idx.GetQualifiedTypeName y = y := by
  rw [TypeIndexM.GetQualifiedTypeName, if_pos hy]

theorem getQualified_of_miss (idx : TypeIndexM) {y : GoStr}
    (h0 : (idx.LookupUnqualifiedType y).2 = []) :
    idx.GetQualifiedTypeName y = y := by
  rw [TypeIndexM.GetQualifiedTypeName]
  split_ifs with hdot
  · rfl
  · simp [h0]

/-- C3: qualification of type names is idempotent; a name already
containing the qualifier separator is returned unchanged, and a bare
name found in no scope is returned unchanged. -/
theorem C3_qualify_idempotent :
    ∀ (idx : TypeIndexM) (x : GoStr),
      idx.GetQualifiedTypeName (idx.GetQualifiedTypeName x) = idx.GetQualifiedTypeName x
      ∧ (goContainsSub ("." : String).toList x = true → idx.GetQualifiedTypeName x = x)
      ∧ ((idx.LookupUnqualifiedType x).2 = [] → idx.GetQualifiedTypeName x = x) := by
  intro idx x
  refine ⟨?_, getQualified_of_contains idx, getQualified_of_miss idx⟩
  by_cases hdot : goContainsSub ("." : String).toList x = true
  · rw [getQualified_of_contains idx hdot, getQualified_of_contains idx hdot]
  · rcases lookupUnqualified_shape idx x with h0 | ⟨pkg, hpkg⟩
    · rw [getQualified_of_miss idx h0]
      exact getQualified_of_miss idx h0
    · have hqx : idx.GetQualifiedTypeName x = pkg ++ '.' :: x := by
        rw [TypeIndexM.GetQualifiedTypeName, if_neg hdot]
        simp [hpkg]
      rw [hqx]
      apply getQualified_of_contains
      exact goContainsSub_of_mem (List.mem_append.2 (Or.inr (List.mem_cons_self _ _)))

/-- C3 witness: concrete instances discharging each hypothesis. -/
theorem C3_qualify_idempotent_witness :
    (goContainsSub ("." : String).toList ("a.b".toList) = true
      ∧ emptyIdx.GetQualifiedTypeName ("a.b".toList) = "a.b".toList)
    ∧ ((emptyIdx.LookupUnqualifiedType ("User".toList)).2 = []
      ∧ emptyIdx.GetQualifiedTypeName ("User".toList) = "User".toList)
    ∧ emptyIdx.GetQualifiedTypeName (emptyIdx.GetQualifiedTypeName ("User".toList))
        = emptyIdx.GetQualifiedTypeName ("User".toList) :=
  ⟨⟨by decide, (C3_qualify_idempotent emptyIdx ("a.b".toList)).2.1 (by decide)⟩,
    ⟨by decide, (C3_qualify_idempotent emptyIdx ("User".toList)).2.2 (by decide)⟩,
    (C3_qualify_idempotent emptyIdx ("User".toList)).1⟩

/-- C9 counterexample: with the create step succeeding and the encode
step failing midway, the operation returns the error and leaves a
truncated file at the destination, so the claim that no
partially-written file remains on error is false at this input. -/
theorem C9_counterexample :
    generateSpecFileWrite [] ("openapi.json".toList) ("abcdef".toList)
        CreateRes.ok (EncodeRes.fail ("ab".toList) ("disk full".toList))
      = (some ("disk full".toList), [("openapi.json".toList, "ab".toList)])
    ∧ lookupA [(("openapi.json".toList : GoStr), ("ab".toList : GoStr))]
        ("openapi.json".toList) = some ("ab".toList)
    ∧ ("ab".toList : GoStr) ≠ ("abcdef".toList : GoStr) := by
  refine ⟨by rfl, by rfl, by decide⟩

/-- C9 amended: the operation propagates every filesystem error
unchanged; on create failure the filesystem is untouched, on success
the pretty-printed encoding is written at the path, and on an encode
failure after a successful create a truncated file (the bytes flushed
before the failure) remains at the destination. -/
theorem C9_amended_error_propagation :
    ∀ (fs : FS) (filePath encoded err written : GoStr),
      generateSpecFileWrite fs filePath encoded (CreateRes.fail err) EncodeRes.ok
        = (some err, fs)
      ∧ generateSpecFileWrite fs filePath encoded (CreateRes.fail err)
          (EncodeRes.fail written err) = (some err, fs)
      ∧ generateSpecFileWrite fs filePath encoded CreateRes.ok EncodeRes.ok
          = (none, setA (setA fs filePath []) filePath encoded)
      ∧ generateSpecFileWrite fs filePath encoded CreateRes.ok
          (EncodeRes.fail written err)
          = (some err, setA (setA fs filePath []) filePath written) := by
  intro fs filePath encoded err written
  exact ⟨rfl, rfl, rfl, rfl⟩

theorem GenerateSchema_plainPrim (st : SGen) (fuel : Nat) (typeName : GoStr)
    (hext : lookupA st.typeIndex.externalKnownTypes typeName = none)
    (hb : isBasicType typeName = true)
    (h1 : goHasPre ("[]".toList) typeName = false)
    (h2 : goHasPre ("*".toList) typeName = false) :
    GenerateSchema (fuel + 1) st typeName
      = (.mk (mapGoTypeToOpenAPI typeName) [] none [] none []
          { description := "basic Go type".toList }, st) := by
  have h1' : goHasPre ['[', ']'] typeName = false := h1
  have h2' : goHasPre ['*'] typeName = false := h2
  simp [GenerateSchema, hext, hb, generateBasicTypeSchemaF, h1, h1', h2, h2']

/-- C6 counterexample: resolving `int` yields a schema whose kind is
`integer` but which also carries the description `basic Go type`, so
it is not equal to the kind-only schema the claim demands. -/
theorem C6_counterexample :
    (GenerateSchema 2 (freshSGen emptyIdx) ("int".toList)).1
        ≠ Schema.base ("integer".toList)
    ∧ (GenerateSchema 2 (freshSGen emptyIdx) ("int".toList)).1.type = "integer".toList
    ∧ (GenerateSchema 2 (freshSGen emptyIdx) ("int".toList)).1.meta.description
        = "basic Go type".toList := by
  refine ⟨?_, by decide, by decide⟩
  intro h
  exact absurd (congrArg Schema.meta h) (by decide)

/-- C6 amended: for every primitive name of the fixed table (absent
from the external override table), resolution yields a schema whose
kind is exactly the table's kind and whose only other populated field
is the fixed description `basic Go type`. -/
theorem C6_amended_prim_table :
    ∀ (st : SGen) (fuel : Nat) (typeName : GoStr),
      typeName ∈ (["int", "int8", "int16", "int32", "int64",
        "uint", "uint8", "uint16", "uint32", "uint64",
        "float32", "float64", "string", "bool"].map String.toList) →
      lookupA st.typeIndex.externalKnownTypes typeName = none →
      GenerateSchema (fuel + 1) st typeName
        = (.mk (mapGoTypeToOpenAPI typeName) [] none [] none []
            { description := "basic Go type".toList }, st) := by
  intro st fuel typeName hmem hext
  fin_cases hmem
  all_goals exact GenerateSchema_plainPrim st fuel _ hext (by decide) (by decide) (by decide)

/-- C6 witness: the amended statement at `int` over a fresh generator. -/
theorem C6_amended_prim_table_witness :
    (("int".toList : GoStr) ∈ (["int", "int8", "int16", "int32", "int64",
        "uint", "uint8", "uint16", "uint32", "uint64",
        "float32", "float64", "string", "bool"].map String.toList)
      ∧ lookupA (freshSGen emptyIdx).typeIndex.externalKnownTypes ("int".toList) = none)
    ∧ GenerateSchema 1 (freshSGen emptyIdx) ("int".toList)
        = (.mk (mapGoTypeToOpenAPI ("int".toList)) [] none [] none []
            { description := "basic Go type".toList }, freshSGen emptyIdx) :=
  ⟨⟨by decide, rfl⟩,
    C6_amended_prim_table (freshSGen emptyIdx) 0 ("int".toList) (by decide) rfl⟩

/-- The format the validate channel forces, when any: last matching
keyword of the source order email, uuid, uri, url wins. -/
def validateFormatOf (v : GoStr) : Option GoStr :=
  if goContainsSub ("url".toList) v then some ("uri".toList)
  else if goContainsSub ("uri".toList) v then some ("uri".toList)
  else if goContainsSub ("uuid".toList) v then some ("uuid".toList)
  else if goContainsSub ("email".toList) v then some ("email".toList)
  else none

/-- The format the binding channel forces, when any: last matching
keyword of the source order email, uuid wins. -/
def bindingFormatOf (b : GoStr) : Option GoStr :=
  if goContainsSub ("uuid".toList) b then some ("uuid".toList)
  else if goContainsSub ("email".toList) b then some ("email".toList)
  else none

theorem applyBindingKeywords_format (u : Schema) (b fb : GoStr)
    (hb : bindingFormatOf b = some fb) :
    (applyBindingKeywords u b).meta.format = fb := by
  rw [bindingFormatOf] at hb
  by_cases h1 : goContainsSub ("uuid".toList) b = true
  · have h1' : goContainsSub ['u', 'u', 'i', 'd'] b = true := h1
    rw [if_pos h1] at hb
    rw [← Option.some_inj.1 hb]
    simp [applyBindingKeywords, h1']
  · have h1' : goContainsSub ['u', 'u', 'i', 'd'] b = false := by
      rw [← Bool.not_eq_true]
      exact h1
    rw [if_neg h1] at hb
    by_cases h2 : goContainsSub ("email".toList) b = true
    · have h2' : goContainsSub ['e', 'm', 'a', 'i', 'l'] b = true := h2
      rw [if_pos h2] at hb
      rw [← Option.some_inj.1 hb]
      simp [applyBindingKeywords, h1', h2']
    · rw [if_neg h2] at hb
      exact absurd hb (by simp)

/-- C8: the three tag channels apply in the order openapi, validate,
binding with last-writer-wins, so when the validate metadata and the
binding metadata both force a format, the final schema carries the
binding channel's format. -/
theorem C8_binding_overrides_validate :
    ∀ (s : Schema) (tag : GoStr) (fv fb : GoStr),
      validateFormatOf (extractTag tag ("validate".toList)) = some fv →
      bindingFormatOf (extractTag tag ("binding".toList)) = some fb →
      (applyEnhancedTags s tag).meta.format = fb := by
  intro s tag fv fb _hv hb
  have hne : extractTag tag ("binding".toList) ≠ [] := by
    intro h0
    rw [h0] at hb
    rw [show bindingFormatOf [] = none from rfl] at hb
    exact Option.noConfusion hb
  rw [applyEnhancedTags, applyBindingTagBlock]
  rw [if_pos hne]
  exact applyBindingKeywords_format _ _ _ hb

/-- C8 witness: the tag of `TestApplyEnhancedTags_ValidateBinding`,
where validate forces email and binding forces uuid. -/
theorem C8_binding_overrides_validate_witness :
    (validateFormatOf (extractTag ("validate:\"email\" binding:\"uuid\"".toList)
        ("validate".toList)) = some ("email".toList)
      ∧ bindingFormatOf (extractTag ("validate:\"email\" binding:\"uuid\"".toList)
        ("binding".toList)) = some ("uuid".toList))
    ∧ (applyEnhancedTags (Schema.base []) ("validate:\"email\" binding:\"uuid\"".toList)
        ).meta.format = "uuid".toList :=
  ⟨⟨by decide, by decide⟩,
    C8_binding_overrides_validate (Schema.base []) _ ("email".toList) ("uuid".toList)
      (by decide) (by decide)⟩

/-- C5: in the object schema produced for a record type, the required
list is exactly the participating members that are non-pointer and
carry no omitempty marker; under pairwise distinct participating JSON
names, a participating member's JSON name is required iff its type is
not a pointer and its tag has no omitempty marker. -/
theorem C5_required_iff :
    ∀ (fuel : Nat) (st : SGen) (fields : List FieldM),
      (convertStructToSchema fuel st fields).1.required = requiredPolicy fields
      ∧ (∀ (f : FieldM) (fieldName : GoStr) (others : List GoStr),
          f ∈ fields → f.names = fieldName :: others → isExported fieldName = true →
          (fields.filterMap participantName).Nodup →
          (jsonNameOf fieldName f.tag ∈ (convertStructToSchema fuel st fields).1.required
            ↔ isPointerType f.ty = false ∧ hasOmitEmpty f.tag = false)) := by
  intro fuel st fields
  have hreq : (convertStructToSchema fuel st fields).1.required = requiredPolicy fields := by
    rw [convertStructToSchema]
    rw [convertStructToSchemaF]
    rw [Schema.required_mk]
    rw [convertFieldsF_required]
    rfl
  refine ⟨hreq, ?_⟩
  intro f fieldName others hf hn he hnd
  rw [hreq]
  constructor
  · intro hmem
    by_contra hc
    exact requiredPolicy_not_mem hnd hf (participantName_cons hn he) hc hmem
  · intro hc
    exact requiredPolicy_mem hf (participantName_cons hn he) hc

/-- C5 witness: the struct of `TestConvertStructToSchema_Simple`
(required is exactly `[a]`; the pointer member `B` is not required). -/
theorem C5_required_iff_witness :
    ((convertStructToSchema 1 (freshSGen emptyIdx) simpleTestFields).1.required
        = requiredPolicy simpleTestFields)
    ∧ ((FieldM.mk ["B".toList] (.star (.ident ("int".toList) false)) none).names
        = "B".toList :: [] ∧ isExported ("B".toList) = true
        ∧ (simpleTestFields.filterMap participantName).Nodup)
    ∧ (jsonNameOf ("B".toList) none
        ∈ (convertStructToSchema 1 (freshSGen emptyIdx) simpleTestFields).1.required
        ↔ isPointerType (ExprM.star (.ident ("int".toList) false)) = false
          ∧ hasOmitEmpty none = false) :=
  ⟨(C5_required_iff 1 (freshSGen emptyIdx) simpleTestFields).1,
    ⟨rfl, by decide, by decide⟩,
    (C5_required_iff 1 (freshSGen emptyIdx) simpleTestFields).2
      (FieldM.mk ["B".toList] (.star (.ident ("int".toList) false)) none)
      ("B".toList) []
      (List.mem_cons_of_mem _ (List.mem_cons_self _ _))
      rfl (by decide) (by decide)⟩

/-- C10: when one declaration clause lists several member names, only
the first name yields a property (and possibly a required entry); the
remaining names of the clause are absent from the schema. -/
theorem C10_first_name_only :
    ∀ (fuel : Nat) (st : SGen) (fields : List FieldM) (f : FieldM)
      (n1 n2 : GoStr) (ns : List GoStr),
      f ∈ fields → f.names = n1 :: n2 :: ns → isExported n1 = true →
      (∀ g ∈ fields, participantName g ≠ some n2) →
      (lookupA (convertStructToSchema fuel st fields).1.properties
          (jsonNameOf n1 f.tag)).isSome = true
      ∧ lookupA (convertStructToSchema fuel st fields).1.properties n2 = none
      ∧ n2 ∉ (convertStructToSchema fuel st fields).1.required := by
  intro fuel st fields f n1 n2 ns hf hn he hno
  have hprops : (convertStructToSchema fuel st fields).1.properties
      = (convertFieldsF (GenerateSchema fuel) st fields [] []).1 := by
    rw [convertStructToSchema, convertStructToSchemaF, Schema.properties_mk]
  have hreq : (convertStructToSchema fuel st fields).1.required = requiredPolicy fields := by
    rw [convertStructToSchema, convertStructToSchemaF, Schema.required_mk,
      convertFieldsF_required]
    rfl
  have hpf : participantName f = some (jsonNameOf n1 f.tag) := by
    rw [participantName, hn]
    dsimp only
    rw [if_pos he]
  refine ⟨?_, ?_, ?_⟩
  · rw [hprops]
    exact convertFieldsF_props_mem _ _ _ _ _ f _ hf hpf
  · rw [hprops]
    exact convertFieldsF_props_none _ _ _ _ _ _ rfl hno
  · rw [hreq]
    intro hmem
    obtain ⟨g, hg, hpg⟩ := requiredPolicy_sub_participant hmem
    exact hno g hg hpg

/-- C10 witness: the clause `A, B int` yields a property and required
entry for `A` only; `B` is absent from both. -/
theorem C10_first_name_only_witness :
    ((FieldM.mk ["A".toList, "B".toList] (.ident ("int".toList) false) none).names
        = "A".toList :: "B".toList :: [] ∧ isExported ("A".toList) = true
      ∧ (∀ g ∈ [FieldM.mk ["A".toList, "B".toList] (.ident ("int".toList) false) none],
          participantName g ≠ some ("B".toList)))
    ∧ (lookupA (convertStructToSchema 1 (freshSGen emptyIdx)
          [FieldM.mk ["A".toList, "B".toList] (.ident ("int".toList) false) none]
          ).1.properties (jsonNameOf ("A".toList) none)).isSome = true
    ∧ lookupA (convertStructToSchema 1 (freshSGen emptyIdx)
          [FieldM.mk ["A".toList, "B".toList] (.ident ("int".toList) false) none]
          ).1.properties ("B".toList) = none
    ∧ ("B".toList : GoStr) ∉ (convertStructToSchema 1 (freshSGen emptyIdx)
          [FieldM.mk ["A".toList, "B".toList] (.ident ("int".toList) false) none]
          ).1.required := by
  have hno : ∀ g ∈ [FieldM.mk ["A".toList, "B".toList] (.ident ("int".toList) false) none],
      participantName g ≠ some ("B".toList) := by
    intro g hg
    rw [List.mem_singleton] at hg
    subst hg
    decide
  have h := C10_first_name_only 1 (freshSGen emptyIdx)
    [FieldM.mk ["A".toList, "B".toList] (.ident ("int".toList) false) none]
    (FieldM.mk ["A".toList, "B".toList] (.ident ("int".toList) false) none)
    ("A".toList) ("B".toList) [] (List.mem_cons_self _ _) rfl (by decide) hno
  exact ⟨⟨rfl, by decide, hno⟩, h.1, h.2.1, h.2.2⟩

/-- C4: a qualified type whose structural definition is a direct alias
of the string primitive resolves as a string enum carrying the sibling
constant values in declaration order when at least one such constant
exists, and as a plain string schema (no enum) when none exists. -/
theorem C4_enum_detection :
    ∀ (st : SGen) (fuel : Nat) (pkg typ tsname : GoStr) (b : Bool),
      st.typeIndex.LookupQualifiedType (pkg ++ '.' :: typ)
          = some ⟨tsname, .ident ("string".toList) b⟩ →
      goSplitChar '.' (pkg ++ '.' :: typ) = [pkg, typ] →
      lookupA st.typeIndex.externalKnownTypes (pkg ++ '.' :: typ) = none →
      isBasicType (pkg ++ '.' :: typ) = false →
      lookupA st.schemas (pkg ++ '.' :: typ) = none →
      ((extractEnumValues st.typeIndex pkg typ ≠ [] →
          handleEnumType st.typeIndex (pkg ++ '.' :: typ)
            = some (enumSchema (pkg ++ '.' :: typ)
                (extractEnumValues st.typeIndex pkg typ))
          ∧ GenerateSchema (fuel + 1) st (pkg ++ '.' :: typ)
            = (refSchema (pkg ++ '.' :: typ),
                { st with schemas := (setA st.schemas (pkg ++ '.' :: typ)
                    (enumSchema (pkg ++ '.' :: typ)
                      (extractEnumValues st.typeIndex pkg typ))) }))
        ∧ (extractEnumValues st.typeIndex pkg typ = [] →
            handleEnumType st.typeIndex (pkg ++ '.' :: typ) = none
            ∧ (GenerateSchema (fuel + 1) st (pkg ++ '.' :: typ)).1
                = Schema.base ("string".toList))) := by
  intro st fuel pkg typ tsname b hlk hsplit hext hbasic htab
  have hdot : goContainsSub ("." : String).toList (pkg ++ '.' :: typ) = true :=
    goContainsSub_of_mem (List.mem_append.2 (Or.inr (List.mem_cons_self _ _)))
  have hqual : st.typeIndex.GetQualifiedTypeName (pkg ++ '.' :: typ) = pkg ++ '.' :: typ :=
    getQualified_of_contains _ hdot
  constructor
  · intro hne
    have he : handleEnumType st.typeIndex (pkg ++ '.' :: typ)
        = some (enumSchema (pkg ++ '.' :: typ) (extractEnumValues st.typeIndex pkg typ)) := by
      rw [handleEnumType, hlk]
      dsimp only
      rw [if_pos rfl, hsplit]
      dsimp only
      rw [if_pos hne]
    refine ⟨he, ?_⟩
    simp [GenerateSchema, hext, hbasic, hqual, htab, he]
  · intro hz
    have he : handleEnumType st.typeIndex (pkg ++ '.' :: typ) = none := by
      rw [handleEnumType, hlk]
      dsimp only
      rw [if_pos rfl, hsplit]
      dsimp only
      rw [hz, if_neg (by simp)]
    refine ⟨he, ?_⟩
    simp [GenerateSchema, hext, hbasic, hqual, htab, he, hlk, Schema.base,
      mapGoTypeToOpenAPI]

/-- A string alias with no sibling constants, for the C4 witness. -/
def plainAliasIdx : TypeIndexM :=
  { types := [("openapi".toList,
      [("PlainAlias".toList, ⟨"PlainAlias".toList, .ident ("string".toList) false⟩)])],
    filesM := [⟨"openapi".toList, []⟩],
    externalKnownTypes := [],
    qualifiedTypes := [("openapi.PlainAlias".toList,
      ⟨"PlainAlias".toList, .ident ("string".toList) false⟩)] }

/-- C4 witness: `openapi.MyEnum` (constants A and B) takes the enum
branch; `openapi.PlainAlias` (no constants) takes the plain-string
branch; all hypotheses are discharged concretely. -/
theorem C4_enum_detection_witness :
    (extractEnumValues myEnumIdx ("openapi".toList) ("MyEnum".toList)
        = ["A".toList, "B".toList]
      ∧ handleEnumType myEnumIdx ("openapi.MyEnum".toList)
          = some (enumSchema ("openapi.MyEnum".toList)
              (extractEnumValues myEnumIdx ("openapi".toList) ("MyEnum".toList)))
      ∧ GenerateSchema 1 (freshSGen myEnumIdx) ("openapi.MyEnum".toList)
          = (refSchema ("openapi.MyEnum".toList),
              { freshSGen myEnumIdx with schemas := (setA [] ("openapi.MyEnum".toList)
                  (enumSchema ("openapi.MyEnum".toList)
                    (extractEnumValues myEnumIdx ("openapi".toList) ("MyEnum".toList)))) }))
    ∧ (extractEnumValues plainAliasIdx ("openapi".toList) ("PlainAlias".toList) = []
      ∧ handleEnumType plainAliasIdx ("openapi.PlainAlias".toList) = none
      ∧ (GenerateSchema 1 (freshSGen plainAliasIdx) ("openapi.PlainAlias".toList)).1
          = Schema.base ("string".toList)) := by
  have h1 := (C4_enum_detection (freshSGen myEnumIdx) 0 ("openapi".toList)
    ("MyEnum".toList) ("MyEnum".toList) false (by rfl) (by decide) rfl (by decide)
    rfl).1 (by decide)
  have h2 := (C4_enum_detection (freshSGen plainAliasIdx) 0 ("openapi".toList)
    ("PlainAlias".toList) ("PlainAlias".toList) false (by rfl) (by decide) rfl
    (by decide) rfl).2 (by rfl)
  exact ⟨⟨by decide, h1.1, h1.2⟩, ⟨by rfl, h2.1, h2.2⟩⟩

theorem goHasPre_append (p s : GoStr) : goHasPre p (p ++ s) = true := by
  induction p with
  | nil => simp [goHasPre, List.isPrefixOf]
  | cons a t ih =>
    show List.isPrefixOf (a :: t) (a :: (t ++ s)) = true
    simp [List.isPrefixOf]

theorem goDropPre_append (p s : GoStr) : goDropPre p (p ++ s) = s := by
  rw [goDropPre,
    if_pos (show List.isPrefixOf p (p ++ s) = true from goHasPre_append p s)]
  exact List.drop_left p s

theorem generateBasicTypeSchemaF_array (gen : GenFun) (st : SGen) (T : GoStr) :
    generateBasicTypeSchemaF gen st ("[]".toList ++ T)
      = (.mk ("array".toList) [] (some (gen st T).1) [] none [] {}, (gen st T).2) := by
  rw [generateBasicTypeSchemaF, if_pos (goHasPre_append ("[]".toList) T),
    goDropPre_append]

theorem GenerateSchema_basic_step (n : Nat) (st : SGen) (nm : GoStr)
    (hext : lookupA st.typeIndex.externalKnownTypes nm = none)
    (hb : isBasicType nm = true) :
    GenerateSchema (n + 1) st nm = generateBasicTypeSchemaF (GenerateSchema n) st nm := by
  simp [GenerateSchema, hext, hb]

theorem isBasicType_array (T : GoStr) : isBasicType ("[]".toList ++ T) = true := by
  rw [isBasicType]
  by_cases hmem : ("[]".toList ++ T) ∈ (["int", "int8", "int16", "int32", "int64",
      "uint", "uint8", "uint16", "uint32", "uint64",
      "float32", "float64", "string", "bool"].map String.toList)
  · rw [if_pos hmem]
  · rw [if_neg hmem, goHasPre_append]
    rfl

/-- C7: resolving a composite name `[]T` yields an array schema whose
items are the resolution of `T`, and nesting composes with pointer
transparency: `[]*[]string` is exactly the resolution of `[]string`
wrapped once more in an array schema. -/
theorem C7_array_composition :
    (∀ (n : Nat) (st : SGen) (T : GoStr),
      lookupA st.typeIndex.externalKnownTypes ("[]".toList ++ T) = none →
      GenerateSchema (n + 1) st ("[]".toList ++ T)
        = (.mk ("array".toList) [] (some (GenerateSchema n st T).1) [] none [] {},
            (GenerateSchema n st T).2))
    ∧ (∀ (n : Nat) (st : SGen),
      lookupA st.typeIndex.externalKnownTypes ("[]*[]string".toList) = none →
      lookupA st.typeIndex.externalKnownTypes ("*[]string".toList) = none →
      GenerateSchema (n + 3) st ("[]*[]string".toList)
        = (.mk ("array".toList) []
            (some (GenerateSchema (n + 1) st ("[]string".toList)).1) [] none [] {},
            (GenerateSchema (n + 1) st ("[]string".toList)).2)) := by
  have part1 : ∀ (n : Nat) (st : SGen) (T : GoStr),
      lookupA st.typeIndex.externalKnownTypes ("[]".toList ++ T) = none →
      GenerateSchema (n + 1) st ("[]".toList ++ T)
        = (.mk ("array".toList) [] (some (GenerateSchema n st T).1) [] none [] {},
            (GenerateSchema n st T).2) := by
    intro n st T hext
    rw [GenerateSchema_basic_step n st _ hext (isBasicType_array T)]
    exact generateBasicTypeSchemaF_array (GenerateSchema n) st T
  refine ⟨part1, ?_⟩
  intro n st h1 h2
  have e1 : ("[]*[]string".toList : GoStr) = "[]".toList ++ "*[]string".toList := by decide
  rw [e1] at h1 ⊢
  rw [show n + 3 = (n + 2) + 1 from rfl, part1 (n + 2) st ("*[]string".toList) h1]
  have hs : GenerateSchema (n + 2) st ("*[]string".toList)
      = GenerateSchema (n + 1) st ("[]string".toList) := by
    rw [show n + 2 = (n + 1) + 1 from rfl,
      GenerateSchema_basic_step (n + 1) st _ h2 (by decide)]
    rw [generateBasicTypeSchemaF, if_neg (by decide), if_pos (by decide)]
    rw [show goDropPre ("*".toList) ("*[]string".toList) = "[]string".toList by decide]
  rw [hs]

/-- C7 witness: both parts at concrete inputs over a fresh generator. -/
theorem C7_array_composition_witness :
    (lookupA (freshSGen emptyIdx).typeIndex.externalKnownTypes
        ("[]".toList ++ "string".toList) = none
      ∧ GenerateSchema 2 (freshSGen emptyIdx) ("[]".toList ++ "string".toList)
        = (.mk ("array".toList) []
            (some (GenerateSchema 1 (freshSGen emptyIdx) ("string".toList)).1)
            [] none [] {},
            (GenerateSchema 1 (freshSGen emptyIdx) ("string".toList)).2))
    ∧ GenerateSchema 3 (freshSGen emptyIdx) ("[]*[]string".toList)
        = (.mk ("array".toList) []
            (some (GenerateSchema 1 (freshSGen emptyIdx) ("[]string".toList)).1)
            [] none [] {},
            (GenerateSchema 1 (freshSGen emptyIdx) ("[]string".toList)).2) :=
  ⟨⟨rfl, C7_array_composition.1 1 (freshSGen emptyIdx) ("string".toList) rfl⟩,
    C7_array_composition.2 0 (freshSGen emptyIdx) rfl rfl⟩

/-- The memoizer short-circuit: once the qualified name sits in the
schema table, resolution returns the reference immediately and leaves
the state untouched. -/
theorem GenerateSchema_hit (n : Nat) (st : SGen) (nm : GoStr)
    (hext : lookupA st.typeIndex.externalKnownTypes nm = none)
    (hbasic : isBasicType nm = false)
    (hhit : (lookupA st.schemas (st.typeIndex.GetQualifiedTypeName nm)).isSome = true) :
    GenerateSchema (n + 1) st nm
      = (refSchema (st.typeIndex.GetQualifiedTypeName nm), st) := by
  obtain ⟨s, hs⟩ := Option.isSome_iff_exists.1 hhit
  simp [GenerateSchema, hext, hbasic, hs]

/-- Table preservation between two generator states: the index is
untouched, and every key already present stays present with the same
multiplicity. -/
def TablePres (st st' : SGen) : Prop :=
  st'.typeIndex = st.typeIndex ∧
  ∀ q, (lookupA st.schemas q).isSome = true →
    (lookupA st'.schemas q).isSome = true ∧ countKey st'.schemas q = countKey st.schemas q

theorem TablePres.rfl (st : SGen) : TablePres st st := ⟨Eq.refl _, fun _ h => ⟨h, Eq.refl _⟩⟩

theorem TablePres.trans {a b c : SGen} (h1 : TablePres a b) (h2 : TablePres b c) :
    TablePres a c := by
  obtain ⟨i1, p1⟩ := h1
  obtain ⟨i2, p2⟩ := h2
  refine ⟨i2.trans i1, fun q h => ?_⟩
  obtain ⟨q1, c1⟩ := p1 q h
  obtain ⟨q2, c2⟩ := p2 q q1
  exact ⟨q2, c2.trans c1⟩

theorem TablePres.setA_new {st : SGen} {k : GoStr} {v : Schema}
    (hk : lookupA st.schemas k = none) :
    TablePres st { st with schemas := setA st.schemas k v } := by
  refine ⟨Eq.refl _, fun q h => ?_⟩
  have hq : q ≠ k := by
    intro heq
    rw [heq, hk] at h
    exact absurd h (by simp)
  constructor
  · rw [lookupA_setA_ne _ _ _ _ hq]
    exact h
  · rw [countKey_setA_absent _ _ _ _ hk, if_neg (fun heq => hq heq.symm)]
    rfl

theorem TablePres.setA_upd {st : SGen} {k : GoStr} {v : Schema}
    (hk : (lookupA st.schemas k).isSome = true) :
    TablePres st { st with schemas := setA st.schemas k v } :=
  ⟨Eq.refl _, fun _q h =>
    ⟨isSome_lookupA_setA _ _ _ _ h, countKey_setA_present _ _ _ _ hk⟩⟩

theorem convertFieldTypeF_pres (gen : GenFun)
    (hgen : ∀ (st : SGen) (nm : GoStr), TablePres st (gen st nm).2) :
    ∀ (e : ExprM) (st : SGen), TablePres st (convertFieldTypeF gen st e).2
  | .ident nm b, st => by
    rw [convertFieldTypeF]
    dsimp only
    split_ifs with h
    · exact TablePres.rfl st
    · exact hgen st _
  | .star e, st => convertFieldTypeF_pres gen hgen e st
  | .arrayT elt, st => by
    rw [convertFieldTypeF]
    exact convertFieldTypeF_pres gen hgen elt st
  | .sel x s, st => hgen st _
  | .mapT v, st => by
    rw [convertFieldTypeF]
    exact convertFieldTypeF_pres gen hgen v st
  | .ifaceT, st => TablePres.rfl st
  | .structT _, st => TablePres.rfl st
  | .other, st => TablePres.rfl st

theorem ensureDependentF_pres (gen : GenFun)
    (hgen : ∀ (st : SGen) (nm : GoStr), TablePres st (gen st nm).2) :
    ∀ (e : ExprM) (st : SGen), TablePres st (ensureDependentF gen st e)
  | .ident nm b, st => by
    rw [ensureDependentF]
    split_ifs with h
    · exact hgen st _
    · exact TablePres.rfl st
  | .star (.ident nm b), st => by
    rw [ensureDependentF]
    split_ifs with h
    · exact hgen st _
    · exact TablePres.rfl st
  | .star (.star e), st => TablePres.rfl st
  | .star (.arrayT e), st => TablePres.rfl st
  | .star (.sel x s), st => TablePres.rfl st
  | .star (.mapT v), st => TablePres.rfl st
  | .star .ifaceT, st => TablePres.rfl st
  | .star (.structT _), st => TablePres.rfl st
  | .star .other, st => TablePres.rfl st
  | .arrayT _, st => TablePres.rfl st
  | .sel x s, st => hgen st _
  | .mapT _, st => TablePres.rfl st
  | .ifaceT, st => TablePres.rfl st
  | .structT _, st => TablePres.rfl st
  | .other, st => TablePres.rfl st

theorem convertFieldsF_pres (gen : GenFun)
    (hgen : ∀ (st : SGen) (nm : GoStr), TablePres st (gen st nm).2) :
    ∀ (fields : List FieldM) (st : SGen) (props : List (GoStr × Schema))
      (req : List GoStr), TablePres st (convertFieldsF gen st fields props req).2.2 := by
  intro fields
  induction fields with
  | nil => intro st props req; exact TablePres.rfl st
  | cons f rest ih =>
    intro st props req
    rcases hn : f.names with _ | ⟨fieldName, others⟩
    · simp only [convertFieldsF, hn]
      exact ih st props req
    · simp only [convertFieldsF, hn]
      by_cases he : isExported fieldName = true
      · rw [if_neg (by rw [he]; simp)]
        exact ((convertFieldTypeF_pres gen hgen f.ty st).trans
          (ensureDependentF_pres gen hgen f.ty _)).trans (ih _ _ _)
      · rw [Bool.not_eq_true] at he
        rw [if_pos (by rw [he])]
        exact ih st props req

/-- The engine never drops a registered schema-table entry and never
duplicates a key already present; the type index is never touched. -/
theorem GenerateSchema_pres :
    ∀ (n : Nat) (st : SGen) (nm : GoStr), TablePres st (GenerateSchema n st nm).2 := by
  intro n
  induction n with
  | zero => intro st nm; exact TablePres.rfl st
  | succ n ih =>
    intro st nm
    rcases hext : lookupA st.typeIndex.externalKnownTypes nm with _ | s
    · by_cases hb : isBasicType nm = true
      · rw [GenerateSchema_basic_step n st nm hext hb, generateBasicTypeSchemaF]
        split_ifs with h1 h2
        · exact ih st _
        · exact ih st _
        · exact TablePres.rfl st
      · rw [Bool.not_eq_true] at hb
        simp only [GenerateSchema, hext, hb, Bool.false_eq_true, if_false]
        rcases htab : lookupA st.schemas (st.typeIndex.GetQualifiedTypeName nm) with _ | s0
        · simp only [htab]
          rcases henum : handleEnumType st.typeIndex
              (st.typeIndex.GetQualifiedTypeName nm) with _ | es
          · simp only [henum]
            rcases hlk : st.typeIndex.LookupQualifiedType
                (st.typeIndex.GetQualifiedTypeName nm) with _ | ts
            · simp only [hlk]
              exact TablePres.rfl st
            · simp only [hlk]
              obtain ⟨tsn, tsty⟩ := ts
              cases tsty with
              | ident nm2 b2 => exact TablePres.rfl st
              | star e2 => exact TablePres.rfl st
              | arrayT e2 => exact TablePres.rfl st
              | sel x2 s2 => exact TablePres.rfl st
              | mapT v2 => exact TablePres.rfl st
              | ifaceT => exact TablePres.rfl st
              | other => exact TablePres.rfl st
              | structT fields2 =>
                dsimp only
                refine TablePres.trans
                  (@TablePres.setA_new st _ placeholderSchema htab) ?_
                refine TablePres.trans
                  (convertFieldsF_pres (GenerateSchema n) ih fields2 _ [] []) ?_
                apply TablePres.setA_upd
                have hst1 : (lookupA (setA st.schemas
                    (st.typeIndex.GetQualifiedTypeName nm) placeholderSchema)
                    (st.typeIndex.GetQualifiedTypeName nm)).isSome = true := by
                  rw [lookupA_setA_self]
                  rfl
                exact ((convertFieldsF_pres (GenerateSchema n) ih fields2 _ [] []).2
                  _ hst1).1
          · simp only [henum]
            exact TablePres.setA_new htab
        · simp only [htab]
          exact TablePres.rfl st
    · simp only [GenerateSchema, hext]
      exact TablePres.rfl st

/-- The state after the first struct-type registration: placeholder,
member fold, then the built schema stored under the qualified name. -/
def structRegisterState (n : Nat) (st : SGen) (q : GoStr) (fields : List FieldM) : SGen :=
  let st1 : SGen := { st with schemas := setA st.schemas q placeholderSchema }
  let r := convertStructToSchemaF (GenerateSchema n) st1 fields
  { r.2 with schemas := setA r.2.schemas q r.1 }

/-- The first request for a struct type registers the placeholder,
builds the members, stores the result under the qualified name exactly
once, and hands back a reference schema. -/
theorem GenerateSchema_first_struct (n : Nat) (st : SGen) (nm tsn : GoStr)
    (fields : List FieldM)
    (hext : lookupA st.typeIndex.externalKnownTypes nm = none)
    (hbasic : isBasicType nm = false)
    (htab : lookupA st.schemas (st.typeIndex.GetQualifiedTypeName nm) = none)
    (hlk : st.typeIndex.LookupQualifiedType (st.typeIndex.GetQualifiedTypeName nm)
        = some ⟨tsn, .structT fields⟩) :
    GenerateSchema (n + 1) st nm
      = (refSchema (st.typeIndex.GetQualifiedTypeName nm),
          structRegisterState n st (st.typeIndex.GetQualifiedTypeName nm) fields)
    ∧ (lookupA (GenerateSchema (n + 1) st nm).2.schemas
        (st.typeIndex.GetQualifiedTypeName nm)).isSome = true
    ∧ countKey (GenerateSchema (n + 1) st nm).2.schemas
        (st.typeIndex.GetQualifiedTypeName nm) = 1
    ∧ (GenerateSchema (n + 1) st nm).2.typeIndex = st.typeIndex := by
  have henum : handleEnumType st.typeIndex (st.typeIndex.GetQualifiedTypeName nm)
      = none := by
    rw [handleEnumType, hlk]
  have heq : GenerateSchema (n + 1) st nm
      = (refSchema (st.typeIndex.GetQualifiedTypeName nm),
          structRegisterState n st (st.typeIndex.GetQualifiedTypeName nm) fields) := by
    simp only [GenerateSchema, hext, hbasic, Bool.false_eq_true, if_false, htab,
      henum, hlk, structRegisterState]
  have hpres : TablePres
      { st with schemas := (setA st.schemas
          (st.typeIndex.GetQualifiedTypeName nm) placeholderSchema) }
      (convertStructToSchemaF (GenerateSchema n)
        { st with schemas := (setA st.schemas
            (st.typeIndex.GetQualifiedTypeName nm) placeholderSchema) } fields).2 :=
    convertFieldsF_pres (GenerateSchema n) (GenerateSchema_pres n) fields _ [] []
  have hq1 : (lookupA (setA st.schemas (st.typeIndex.GetQualifiedTypeName nm)
      placeholderSchema) (st.typeIndex.GetQualifiedTypeName nm)).isSome = true := by
    rw [lookupA_setA_self]
    rfl
  obtain ⟨hq2, hc2⟩ := hpres.2 _ hq1
  have hcount1 : countKey (setA st.schemas (st.typeIndex.GetQualifiedTypeName nm)
      placeholderSchema) (st.typeIndex.GetQualifiedTypeName nm) = 1 := by
    rw [countKey_setA_absent _ _ _ _ htab, (countKey_eq_zero_iff _ _).2 htab]
    simp
  refine ⟨heq, ?_, ?_, ?_⟩
  · rw [heq]
    show (lookupA (setA _ _ _) _).isSome = true
    rw [lookupA_setA_self]
    rfl
  · rw [heq]
    show countKey (setA _ _ _) _ = 1
    rw [countKey_setA_present _ _ _ _ hq2, hc2, hcount1]
  · rw [heq]
    exact hpres.1

/-- C2: within one generation run, the first request for a struct type
yields a reference schema and exactly one schema-table entry under the
qualified name, and every further request — through the qualified name
or any bare name qualifying to it — returns an equal reference and
leaves the state (hence the single table entry) unchanged. -/
theorem C2_single_entry_equal_refs :
    ∀ (n k : Nat) (st : SGen) (nm nm2 tsn : GoStr) (fields : List FieldM),
      lookupA st.typeIndex.externalKnownTypes nm = none →
      isBasicType nm = false →
      lookupA st.schemas (st.typeIndex.GetQualifiedTypeName nm) = none →
      st.typeIndex.LookupQualifiedType (st.typeIndex.GetQualifiedTypeName nm)
        = some ⟨tsn, .structT fields⟩ →
      lookupA st.typeIndex.externalKnownTypes nm2 = none →
      isBasicType nm2 = false →
      st.typeIndex.GetQualifiedTypeName nm2 = st.typeIndex.GetQualifiedTypeName nm →
      ((GenerateSchema (n + 1) st nm).1
          = refSchema (st.typeIndex.GetQualifiedTypeName nm)
        ∧ countKey (GenerateSchema (n + 1) st nm).2.schemas
            (st.typeIndex.GetQualifiedTypeName nm) = 1
        ∧ GenerateSchema (k + 1) (GenerateSchema (n + 1) st nm).2 nm2
            = (refSchema (st.typeIndex.GetQualifiedTypeName nm),
                (GenerateSchema (n + 1) st nm).2)) := by
  intro n k st nm nm2 tsn fields hext hbasic htab hlk hext2 hbasic2 hq2
  obtain ⟨h1, h2, h3, h4⟩ :=
    GenerateSchema_first_struct n st nm tsn fields hext hbasic htab hlk
  refine ⟨by rw [h1], h3, ?_⟩
  have hhit : (lookupA (GenerateSchema (n + 1) st nm).2.schemas
      ((GenerateSchema (n + 1) st nm).2.typeIndex.GetQualifiedTypeName nm2)).isSome
      = true := by
    rw [h4, hq2]
    exact h2
  have := GenerateSchema_hit k (GenerateSchema (n + 1) st nm).2 nm2
    (by rw [h4]; exact hext2) hbasic2 hhit
  rw [this, h4, hq2]

/-- C2 witness: the `Simple` struct of `schema_test.go`, requested
first by bare name and then by qualified name, mirroring
`TestQualifiedNaming_NoDuplicates`. -/
theorem C2_single_entry_equal_refs_witness :
    (lookupA (freshSGen simpleIdx).typeIndex.externalKnownTypes ("Simple".toList) = none
      ∧ isBasicType ("Simple".toList) = false
      ∧ (freshSGen simpleIdx).typeIndex.GetQualifiedTypeName ("Simple".toList)
          = "openapi.Simple".toList
      ∧ (freshSGen simpleIdx).typeIndex.GetQualifiedTypeName ("openapi.Simple".toList)
          = "openapi.Simple".toList)
    ∧ (GenerateSchema 3 (freshSGen simpleIdx) ("Simple".toList)).1
        = refSchema ((freshSGen simpleIdx).typeIndex.GetQualifiedTypeName
            ("Simple".toList))
    ∧ countKey (GenerateSchema 3 (freshSGen simpleIdx) ("Simple".toList)).2.schemas
        ((freshSGen simpleIdx).typeIndex.GetQualifiedTypeName ("Simple".toList)) = 1
    ∧ GenerateSchema 3 (GenerateSchema 3 (freshSGen simpleIdx) ("Simple".toList)).2
        ("openapi.Simple".toList)
        = (refSchema ((freshSGen simpleIdx).typeIndex.GetQualifiedTypeName
            ("Simple".toList)),
            (GenerateSchema 3 (freshSGen simpleIdx) ("Simple".toList)).2) := by
  have h := C2_single_entry_equal_refs 2 2 (freshSGen simpleIdx) ("Simple".toList)
    ("openapi.Simple".toList) ("Simple".toList)
    [ .mk ["ID".toList] (.ident ("int".toList) false) (some "`json:\"id\"`".toList),
      .mk ["Name".toList] (.ident ("string".toList) false)
        (some "`json:\"name\"`".toList) ]
    rfl (by decide) rfl rfl rfl (by decide) (by decide)
  exact ⟨⟨rfl, by decide, by decide, by decide⟩, h.1, h.2.1, h.2.2⟩

theorem applyOpenapiKV_ref (s : Schema) (k v : GoStr) :
    (applyOpenapiKV s k v).ref = s.ref := by
  rw [applyOpenapiKV]
  simp only [apply_ite Schema.ref, Schema.withMeta_ref, ite_self]

theorem applyOpenapiKV_items (s : Schema) (k v : GoStr) :
    (applyOpenapiKV s k v).items = s.items := by
  rw [applyOpenapiKV]
  simp only [apply_ite Schema.items, Schema.withMeta_items, ite_self]

theorem applyOpenapiParts_ref :
    ∀ (parts : List GoStr) (s : Schema), (applyOpenapiParts s parts).ref = s.ref := by
  intro parts
  induction parts with
  | nil => intro s; rfl
  | cons p rest ih =>
    intro s
    rw [applyOpenapiParts]
    dsimp only
    split_ifs with h
    · rw [ih, applyOpenapiKV_ref]
    · rw [ih]

theorem applyOpenapiParts_items :
    ∀ (parts : List GoStr) (s : Schema), (applyOpenapiParts s parts).items = s.items := by
  intro parts
  induction parts with
  | nil => intro s; rfl
  | cons p rest ih =>
    intro s
    rw [applyOpenapiParts]
    dsimp only
    split_ifs with h
    · rw [ih, applyOpenapiKV_items]
    · rw [ih]

theorem applyValidateKeywords_ref (s : Schema) (t : GoStr) :
    (applyValidateKeywords s t).ref = s.ref := by
  simp only [applyValidateKeywords]
  simp only [apply_ite Schema.ref, Schema.withMeta_ref, ite_self]

theorem applyValidateKeywords_items (s : Schema) (t : GoStr) :
    (applyValidateKeywords s t).items = s.items := by
  simp only [applyValidateKeywords]
  simp only [apply_ite Schema.items, Schema.withMeta_items, ite_self]

theorem applyBindingKeywords_ref (s : Schema) (t : GoStr) :
    (applyBindingKeywords s t).ref = s.ref := by
  simp only [applyBindingKeywords]
  simp only [apply_ite Schema.ref, Schema.withMeta_ref, ite_self]

theorem applyBindingKeywords_items (s : Schema) (t : GoStr) :
    (applyBindingKeywords s t).items = s.items := by
  simp only [applyBindingKeywords]
  simp only [apply_ite Schema.items, Schema.withMeta_items, ite_self]

theorem applyEnhancedTags_ref (s : Schema) (tag : GoStr) :
    (applyEnhancedTags s tag).ref = s.ref := by
  rw [applyEnhancedTags, applyBindingTagBlock, applyValidateTagBlock,
    applyOpenapiTagBlock]
  split_ifs
  all_goals
    simp only [applyBindingKeywords_ref, applyValidateKeywords_ref,
      applyOpenapiParts_ref]

theorem applyEnhancedTags_items (s : Schema) (tag : GoStr) :
    (applyEnhancedTags s tag).items = s.items := by
  rw [applyEnhancedTags, applyBindingTagBlock, applyValidateTagBlock,
    applyOpenapiTagBlock]
  split_ifs
  all_goals
    simp only [applyBindingKeywords_items, applyValidateKeywords_items,
      applyOpenapiParts_items]

/-- A member shape of a self-referential struct for the cycle-safety
analysis: the struct's own type (directly, through a pointer or
through a slice), or a plain primitive. -/
def SimpleField (tyName : GoStr) (f : FieldM) : Prop :=
  f.ty = .ident tyName true ∨ f.ty = .star (.ident tyName true) ∨
    f.ty = .arrayT (.ident tyName true) ∨
    ∃ p, f.ty = .ident p false ∧ mapGoTypeToOpenAPI p ≠ "object".toList

/-- The untagged schema `convertFieldType` produces for such a member
once the struct's own qualified name `q` already sits in the table:
self-references come back as the reference schema. -/
def cyclicFieldBase (q : GoStr) : ExprM → Schema
  | .ident nm _ =>
    if mapGoTypeToOpenAPI nm ≠ "object".toList then Schema.base (mapGoTypeToOpenAPI nm)
    else refSchema q
  | .star _ => refSchema q
  | .arrayT _ => .mk ("array".toList) [] (some (refSchema q)) [] none [] {}
  | _ => Schema.base ("object".toList)

/-- The member schema after the tag channel. -/
def cyclicFieldSchema (q : GoStr) (f : FieldM) : Schema :=
  match f.tag with
  | none => cyclicFieldBase q f.ty
  | some tagLit => applyEnhancedTags (cyclicFieldBase q f.ty) (goTrimCh (Char.ofNat 96) tagLit)

/-- The property list the field loop accumulates over such members. -/
def cyclicProps (q : GoStr) : List FieldM → List (GoStr × Schema) → List (GoStr × Schema)
  | [], props => props
  | f :: rest, props =>
    match f.names with
    | [] => cyclicProps q rest props
    | fieldName :: _ =>
      if isExported fieldName = false then cyclicProps q rest props
      else
        cyclicProps q rest (setA props (jsonNameOf fieldName f.tag) (cyclicFieldSchema q f))

theorem convertFieldTypeF_simple (gen : GenFun) (tyName q : GoStr) (st : SGen)
    (hq : st.typeIndex.GetQualifiedTypeName tyName = q)
    (hobj : mapGoTypeToOpenAPI tyName = "object".toList)
    (hgen : gen st q = (refSchema q, st))
    (f : FieldM) (hsf : SimpleField tyName f) :
    convertFieldTypeF gen st f.ty = (cyclicFieldBase q f.ty, st) := by
  have hid : convertFieldTypeF gen st (.ident tyName true)
      = (cyclicFieldBase q (.ident tyName true), st) := by
    rw [convertFieldTypeF, cyclicFieldBase]
    dsimp only
    rw [if_neg (fun hne => hne hobj), if_neg (fun hne => hne hobj), hq, hgen]
  rcases hsf with h | h | h | ⟨p, hp, hne⟩
  · rw [h]
    exact hid
  · rw [h, convertFieldTypeF]
    rw [hid]
    rw [cyclicFieldBase, cyclicFieldBase, if_neg (fun hc => hc hobj)]
  · rw [h, convertFieldTypeF]
    rw [hid]
    rw [cyclicFieldBase, cyclicFieldBase, if_neg (fun hc => hc hobj)]
  · rw [hp, convertFieldTypeF, cyclicFieldBase]
    dsimp only
    rw [if_pos hne, if_pos hne]

theorem ensureDependentF_simple (gen : GenFun) (tyName q : GoStr) (st : SGen)
    (hq : st.typeIndex.GetQualifiedTypeName tyName = q)
    (hgen : gen st q = (refSchema q, st))
    (f : FieldM) (hsf : SimpleField tyName f) :
    ensureDependentF gen st f.ty = st := by
  rcases hsf with h | h | h | ⟨p, hp, hne⟩
  · rw [h, ensureDependentF, if_pos rfl, hq, hgen]
  · rw [h, ensureDependentF, if_pos rfl, hq, hgen]
  · rw [h]
    rfl
  · rw [hp, ensureDependentF]
    exact if_neg (by simp)

/-- Over such members, with the struct's own qualified name already
registered, the field loop computes the cyclic property list and the
required-field policy and leaves the state untouched. -/
theorem convertFieldsF_simple (gen : GenFun) (tyName q : GoStr) (st : SGen)
    (hq : st.typeIndex.GetQualifiedTypeName tyName = q)
    (hobj : mapGoTypeToOpenAPI tyName = "object".toList)
    (hgen : gen st q = (refSchema q, st)) :
    ∀ (fields : List FieldM), (∀ f ∈ fields, SimpleField tyName f) →
    ∀ (props : List (GoStr × Schema)) (req : List GoStr),
      convertFieldsF gen st fields props req
        = (cyclicProps q fields props, req ++ requiredPolicy fields, st) := by
  intro fields
  induction fields with
  | nil =>
    intro _ props req
    simp [convertFieldsF, cyclicProps, requiredPolicy]
  | cons f rest ih =>
    intro hsp props req
    have hsf := hsp f (List.mem_cons_self f rest)
    have hrest := fun g hg => hsp g (List.mem_cons_of_mem f hg)
    have hr1 := convertFieldTypeF_simple gen tyName q st hq hobj hgen f hsf
    have hed := ensureDependentF_simple gen tyName q st hq hgen f hsf
    rcases hn : f.names with _ | ⟨fieldName, others⟩
    · simp only [convertFieldsF, cyclicProps, hn]
      rw [ih hrest]
      simp only [requiredPolicy]
      rw [List.filterMap_cons, show requiredName f = none by rw [requiredName, hn]]
    · simp only [convertFieldsF, cyclicProps, hn]
      by_cases he : isExported fieldName = true
      · have hne : ¬(isExported fieldName = false) := by rw [he]; simp
        rw [if_neg hne, if_neg hne]
        rw [hr1, hed]
        dsimp only
        have hfs : (match f.tag with
            | none => cyclicFieldBase q f.ty
            | some tagLit =>
              applyEnhancedTags (cyclicFieldBase q f.ty) (goTrimCh (Char.ofNat 96) tagLit))
            = cyclicFieldSchema q f := rfl
        rw [hfs, ih hrest]
        by_cases hreq : isPointerType f.ty = false ∧ hasOmitEmpty f.tag = false
        · rw [if_pos hreq]
          have hr : requiredName f = some (jsonNameOf fieldName f.tag) := by
            rw [requiredName, hn]
            dsimp only
            rw [if_pos ⟨he, hreq⟩]
          simp only [requiredPolicy]
          rw [List.filterMap_cons, hr]
          simp
        · rw [if_neg hreq]
          have hr : requiredName f = none := by
            rw [requiredName, hn]
            dsimp only
            exact if_neg fun hcon => hreq ⟨hcon.2.1, hcon.2.2⟩
          simp only [requiredPolicy]
          rw [List.filterMap_cons, hr]
      · rw [Bool.not_eq_true] at he
        have hpe : isExported fieldName = false := he
        rw [if_pos hpe, if_pos hpe]
        rw [ih hrest]
        have hr : requiredName f = none := by
          rw [requiredName, hn]
          dsimp only
          rw [if_neg]
          intro hcon
          rw [he] at hcon
          exact absurd hcon.1 (by simp)
        simp only [requiredPolicy]
        rw [List.filterMap_cons, hr]

/-- Fields without participant name `j` leave the key `j` alone. -/
theorem cyclicProps_untouched (q : GoStr) :
    ∀ (fields : List FieldM) (props : List (GoStr × Schema)) (j : GoStr),
      (∀ g ∈ fields, participantName g ≠ some j) →
      lookupA (cyclicProps q fields props) j = lookupA props j := by
  intro fields
  induction fields with
  | nil => intro props j _; rfl
  | cons g rest ih =>
    intro props j hng
    have hng' := fun g' hg' => hng g' (List.mem_cons_of_mem g hg')
    rcases hn : g.names with _ | ⟨fieldName, others⟩
    · simp only [cyclicProps, hn]
      exact ih _ _ hng'
    · simp only [cyclicProps, hn]
      by_cases he : isExported fieldName = true
      · have hnf : ¬(isExported fieldName = false) := by rw [he]; simp
        rw [if_neg hnf]
        rw [ih _ _ hng']
        have hkey : jsonNameOf fieldName g.tag ≠ j := fun heq =>
          hng g (List.mem_cons_self g rest) (by rw [participantName_cons hn he, heq])
        rw [lookupA_setA_ne _ _ _ _ (Ne.symm hkey)]
      · rw [Bool.not_eq_true] at he
        rw [if_pos he]
        exact ih _ _ hng'

/-- With pairwise-distinct participating JSON names, each
participating field's key maps to exactly its member schema. -/
theorem cyclicProps_lookup (q : GoStr) :
    ∀ (fields : List FieldM) (props : List (GoStr × Schema)) (f : FieldM) (j : GoStr),
      (fields.filterMap participantName).Nodup →
      f ∈ fields → participantName f = some j →
      lookupA (cyclicProps q fields props) j = some (cyclicFieldSchema q f) := by
  intro fields
  induction fields with
  | nil =>
    intro props f j _ hf _
    simp at hf
  | cons g rest ih =>
    intro props f j hnd hf hp
    rcases List.mem_cons.1 hf with rfl | hfr
    · have hp' := hp
      rw [participantName] at hp'
      rcases hn : f.names with _ | ⟨fieldName, others⟩
      · rw [hn] at hp'
        simp at hp'
      · rw [hn] at hp'
        dsimp only at hp'
        split_ifs at hp' with he
        simp only [cyclicProps, hn]
        have hnf : ¬(isExported fieldName = false) := by rw [he]; simp
        rw [if_neg hnf]
        have hng : ∀ g' ∈ rest, participantName g' ≠ some j := by
          intro g' hg' hpg'
          have hjmem : j ∈ rest.filterMap participantName :=
            List.mem_filterMap.2 ⟨g', hg', hpg'⟩
          have hnotin : j ∉ rest.filterMap participantName := by
            have hnd' := hnd
            rw [List.filterMap_cons, hp] at hnd'
            exact (List.nodup_cons.1 hnd').1
          exact hnotin hjmem
        rw [cyclicProps_untouched q rest _ j hng]
        have hj : jsonNameOf fieldName f.tag = j := Option.some_inj.1 hp'
        rw [← hj, lookupA_setA_self]
    · have hnd' : (rest.filterMap participantName).Nodup := by
        rw [List.filterMap_cons] at hnd
        rcases hpg : participantName g with _ | a
        · rwa [hpg] at hnd
        · rw [hpg] at hnd
          exact (List.nodup_cons.1 hnd).2
      rcases hn : g.names with _ | ⟨fieldName, others⟩
      · simp only [cyclicProps, hn]
        exact ih _ _ _ hnd' hfr hp
      · simp only [cyclicProps, hn]
        by_cases he : isExported fieldName = true
        · have hnf : ¬(isExported fieldName = false) := by rw [he]; simp
          rw [if_neg hnf]
          exact ih _ _ _ hnd' hfr hp
        · rw [Bool.not_eq_true] at he
          rw [if_pos he]
          exact ih _ _ _ hnd' hfr hp

/-- A direct or pointer self-reference member comes back as a schema
whose only reference field points at the struct's table entry, whatever
its tag adds. -/
theorem cyclicFieldSchema_ref (q tyName : GoStr) (f : FieldM)
    (hobj : mapGoTypeToOpenAPI tyName = "object".toList)
    (h : f.ty = .ident tyName true ∨ f.ty = .star (.ident tyName true)) :
    (cyclicFieldSchema q f).ref = "#/components/schemas/".toList ++ q := by
  have hbase : (cyclicFieldBase q f.ty).ref = "#/components/schemas/".toList ++ q := by
    rcases h with h | h
    · rw [h, cyclicFieldBase, if_neg (fun hc => hc hobj)]
      rfl
    · rw [h, cyclicFieldBase]
      rfl
  rw [cyclicFieldSchema]
  rcases htag : f.tag with _ | tagLit
  · exact hbase
  · rw [applyEnhancedTags_ref]
    exact hbase

/-- A slice-of-self member comes back as an array schema whose items
are the reference schema, whatever its tag adds. -/
theorem cyclicFieldSchema_items (q tyName : GoStr) (f : FieldM)
    (h : f.ty = .arrayT (.ident tyName true)) :
    (cyclicFieldSchema q f).items = some (refSchema q) := by
  have hbase : (cyclicFieldBase q f.ty).items = some (refSchema q) := by
    rw [h, cyclicFieldBase]
    rfl
  rw [cyclicFieldSchema]
  rcases htag : f.tag with _ | tagLit
  · exact hbase
  · rw [applyEnhancedTags_items]
    exact hbase

/-- C1: a record type whose members reference the type itself —
directly, through a pointer or through a slice — resolves at every
recursion budget of at least two to one and the same finite result:
the placeholder is registered first, the member fold then hits the
table, and the stored object schema carries each self-referential
member as a `$ref` to the named schema-table entry (inside `items`
for the slice shape) instead of inlining the type again. -/
theorem C1_cycle_safety (n : Nat) (st : SGen) (tyName tsn q : GoStr)
    (fields : List FieldM)
    (hq : st.typeIndex.GetQualifiedTypeName tyName = q)
    (hext : lookupA st.typeIndex.externalKnownTypes tyName = none)
    (hbasic : isBasicType tyName = false)
    (hobj : mapGoTypeToOpenAPI tyName = "object".toList)
    (hextQ : lookupA st.typeIndex.externalKnownTypes q = none)
    (hbasicQ : isBasicType q = false)
    (hqq : st.typeIndex.GetQualifiedTypeName q = q)
    (htab : lookupA st.schemas q = none)
    (hlk : st.typeIndex.LookupQualifiedType q = some ⟨tsn, .structT fields⟩)
    (hsp : ∀ f ∈ fields, SimpleField tyName f)
    (hnodup : (fields.filterMap participantName).Nodup) :
    GenerateSchema (n + 2) st tyName
      = (refSchema q,
          { st with schemas := (setA (setA st.schemas q placeholderSchema) q
              (Schema.mk ("object".toList) (cyclicProps q fields []) none
                (requiredPolicy fields) none [] {})) })
    ∧ countKey (GenerateSchema (n + 2) st tyName).2.schemas q = 1
    ∧ ∀ f ∈ fields, ∀ j, participantName f = some j →
        ((f.ty = .ident tyName true ∨ f.ty = .star (.ident tyName true)) →
          ∃ s, lookupA (cyclicProps q fields []) j = some s
            ∧ s.ref = "#/components/schemas/".toList ++ q)
        ∧ (f.ty = .arrayT (.ident tyName true) →
          ∃ s, lookupA (cyclicProps q fields []) j = some s
            ∧ s.items = some (refSchema q)) := by
  have htab' : lookupA st.schemas (st.typeIndex.GetQualifiedTypeName tyName) = none := by
    rw [hq]; exact htab
  have hlk' : st.typeIndex.LookupQualifiedType (st.typeIndex.GetQualifiedTypeName tyName)
      = some ⟨tsn, .structT fields⟩ := by
    rw [hq]; exact hlk
  obtain ⟨h1, -, h3, -⟩ :=
    GenerateSchema_first_struct (n + 1) st tyName tsn fields hext hbasic htab' hlk'
  rw [hq] at h1 h3
  have hgen1 : GenerateSchema (n + 1)
      { st with schemas := (setA st.schemas q placeholderSchema) } q
      = (refSchema q,
          { st with schemas := (setA st.schemas q placeholderSchema) }) := by
    have hh : (lookupA (setA st.schemas q placeholderSchema)
        (st.typeIndex.GetQualifiedTypeName q)).isSome = true := by
      rw [hqq, lookupA_setA_self]
      rfl
    have hres : GenerateSchema (n + 1)
        { st with schemas := (setA st.schemas q placeholderSchema) } q
        = (refSchema (st.typeIndex.GetQualifiedTypeName q),
            { st with schemas := (setA st.schemas q placeholderSchema) }) :=
      GenerateSchema_hit n
        { st with schemas := (setA st.schemas q placeholderSchema) } q hextQ hbasicQ hh
    rw [hqq] at hres
    exact hres
  have hfold := convertFieldsF_simple (GenerateSchema (n + 1)) tyName q
      { st with schemas := (setA st.schemas q placeholderSchema) }
      hq hobj hgen1 fields hsp [] []
  have hreg : structRegisterState (n + 1) st q fields
      = { st with schemas := (setA (setA st.schemas q placeholderSchema) q
          (Schema.mk ("object".toList) (cyclicProps q fields []) none
            (requiredPolicy fields) none [] {})) } := by
    simp only [structRegisterState, convertStructToSchemaF]
    rw [hfold]
    dsimp only
    rw [List.nil_append]
  rw [hreg] at h1
  refine ⟨h1, h3, ?_⟩
  intro f hf j hpj
  constructor
  · intro hty
    exact ⟨cyclicFieldSchema q f,
      cyclicProps_lookup q fields [] f j hnodup hf hpj,
      cyclicFieldSchema_ref q tyName f hobj hty⟩
  · intro hty
    exact ⟨cyclicFieldSchema q f,
      cyclicProps_lookup q fields [] f j hnodup hf hpj,
      cyclicFieldSchema_items q tyName f hty⟩

/-- A linked-tree node referencing itself through a pointer and
through a slice. -/
def nodeFields : List FieldM :=
  [ .mk ["Next".toList] (.star (.ident ("Node".toList) true)) none,
    .mk ["Children".toList] (.arrayT (.ident ("Node".toList) true)) none,
    .mk ["Value".toList] (.ident ("int".toList) false) none ]

/-- An index declaring exactly the `Node` struct in package `openapi`. -/
def nodeIdx : TypeIndexM :=
  ⟨[("openapi".toList, [("Node".toList, ⟨"Node".toList, .structT nodeFields⟩)])],
    [], [],
    [("openapi.Node".toList, ⟨"Node".toList, .structT nodeFields⟩)]⟩

/-- C1 witness: resolving the self-referential `Node` struct at fuel 2
terminates with a single table entry whose `Next` member is a `$ref`
to `#/components/schemas/openapi.Node` and whose `Children` member is
an array of that reference. -/
theorem C1_cycle_safety_witness :
    ((freshSGen nodeIdx).typeIndex.GetQualifiedTypeName ("Node".toList)
        = "openapi.Node".toList
      ∧ isBasicType ("Node".toList) = false
      ∧ lookupA (freshSGen nodeIdx).schemas ("openapi.Node".toList) = none)
    ∧ GenerateSchema 2 (freshSGen nodeIdx) ("Node".toList)
        = (refSchema ("openapi.Node".toList),
            { freshSGen nodeIdx with schemas := (setA (setA (freshSGen nodeIdx).schemas
                ("openapi.Node".toList) placeholderSchema) ("openapi.Node".toList)
                (Schema.mk ("object".toList)
                  (cyclicProps ("openapi.Node".toList) nodeFields [])
                  none (requiredPolicy nodeFields) none [] {})) })
    ∧ countKey (GenerateSchema 2 (freshSGen nodeIdx) ("Node".toList)).2.schemas
        ("openapi.Node".toList) = 1
    ∧ (∃ s, lookupA (cyclicProps ("openapi.Node".toList) nodeFields [])
          ("Next".toList) = some s
        ∧ s.ref = "#/components/schemas/".toList ++ "openapi.Node".toList)
    ∧ (∃ s, lookupA (cyclicProps ("openapi.Node".toList) nodeFields [])
          ("Children".toList) = some s
        ∧ s.items = some (refSchema ("openapi.Node".toList))) := by
  have hsp : ∀ f ∈ nodeFields, SimpleField ("Node".toList) f := by
    intro f hf
    simp only [nodeFields, List.mem_cons, List.not_mem_nil, or_false] at hf
    rcases hf with rfl | rfl | rfl
    · exact Or.inr (Or.inl rfl)
    · exact Or.inr (Or.inr (Or.inl rfl))
    · exact Or.inr (Or.inr (Or.inr ⟨"int".toList, rfl, by decide⟩))
  obtain ⟨h1, h2, h3⟩ := C1_cycle_safety 0 (freshSGen nodeIdx) ("Node".toList)
    ("Node".toList) ("openapi.Node".toList) nodeFields rfl rfl (by decide) rfl rfl
    (by decide) rfl rfl rfl hsp (by decide)
  refine ⟨⟨rfl, by decide, rfl⟩, h1, h2, ?_, ?_⟩
  · exact (h3 (FieldM.mk ["Next".toList] (.star (.ident ("Node".toList) true)) none)
      (List.mem_cons_self _ _) ("Next".toList) rfl).1 (Or.inr rfl)
  · exact (h3 (FieldM.mk ["Children".toList] (.arrayT (.ident ("Node".toList) true)) none)
      (List.mem_cons_of_mem _ (List.mem_cons_self _ _)) ("Children".toList) rfl).2 rfl

end OpenapiGen

